import Mathlib

/-!
Shallow embedding of the duty-scheduling core of `src/App.tsx`
(Wayne-management): the manual-edit validators `toggleShift` and
`updateShift` (the spec's `validatePlacement`), the auto-fill scheduler
`generateSchedule` (the spec's `autoFillMonth`) and the conflicts/warnings
report (the spec's `reportConflicts`).

Modelling conventions:
* The TSX code stores dates as canonical `"yyyy-MM-dd"` strings and uses
  `date-fns` for day arithmetic.  We model a date as a `(year, month, day)`
  triple.  On canonical zero-padded strings, string equality is triple
  equality, `startsWith "yyyy-MM"` is year+month equality, and
  `localeCompare` ordering is lexicographic ordering on the triple, so the
  translation preserves every comparison the code performs.  `addDays`/
  `subDays` by one or two days become `nextDay`/`prevDay` iterates, and the
  millisecond difference divided by 86 400 000 (the locale has no DST)
  becomes a difference of civil day numbers.
* JavaScript machine integers for counts and list lengths are modelled as
  `Nat`/`Int`; the comparator arithmetic is exact `Int` arithmetic, as in JS
  for these small values.
* The running tallies object `counts` (a mutable record keyed by person id)
  is modelled as a function `String → Cnt`, updated functionally.
-/

/-- Calendar date, modelling a canonical `"yyyy-MM-dd"` string. -/
structure Date where
  y : Nat
  m : Nat
  d : Nat
deriving DecidableEq, Repr

/-- Gregorian leap year. -/
def isLeap (y : Nat) : Bool :=
  y % 4 == 0 && (y % 100 != 0 || y % 400 == 0)

/-- Number of days in a month (defaulting to 31 on out-of-range months). -/
def daysInMonth (y m : Nat) : Nat :=
  if m == 2 then (if isLeap y then 29 else 28)
  else if m == 4 || m == 6 || m == 9 || m == 11 then 30
  else 31

/-- Days of the given year strictly before month `m` (1-based). -/
def daysBeforeMonth (y m : Nat) : Nat :=
  let base :=
    if m ≤ 1 then 0 else if m == 2 then 31 else if m == 3 then 59
    else if m == 4 then 90 else if m == 5 then 120 else if m == 6 then 151
    else if m == 7 then 181 else if m == 8 then 212 else if m == 9 then 243
    else if m == 10 then 273 else if m == 11 then 304 else 334
  if 2 < m && isLeap y then base + 1 else base

/-- Proleptic-Gregorian day number: `0001-01-01 ↦ 0`. -/
def dayNumber (dt : Date) : Nat :=
  365 * (dt.y - 1) + (dt.y - 1) / 4 - (dt.y - 1) / 100 + (dt.y - 1) / 400
    + daysBeforeMonth dt.y dt.m + (dt.d - 1)

/-- Day of week with the JS `Date.getDay` encoding: 0 = Sunday … 6 = Saturday.
(`0001-01-01` proleptic Gregorian is a Monday.) -/
def dayOfWeek (dt : Date) : Nat := (dayNumber dt + 1) % 7

/-- The `date-fns` `isWeekend`: Saturday or Sunday. -/
def isWeekendDay (dt : Date) : Bool :=
  dayOfWeek dt == 0 || dayOfWeek dt == 6

/-- Successor day: `addDays(date, 1)` on a canonical date. -/
def nextDay (dt : Date) : Date :=
  if dt.d < daysInMonth dt.y dt.m then ⟨dt.y, dt.m, dt.d + 1⟩
  else if dt.m < 12 then ⟨dt.y, dt.m + 1, 1⟩
  else ⟨dt.y + 1, 1, 1⟩

/-- Predecessor day: `subDays(date, 1)` on a canonical date. -/
def prevDay (dt : Date) : Date :=
  if 1 < dt.d then ⟨dt.y, dt.m, dt.d - 1⟩
  else if 1 < dt.m then ⟨dt.y, dt.m - 1, daysInMonth dt.y (dt.m - 1)⟩
  else ⟨dt.y - 1, 12, 31⟩

/-- Day distance: `Math.round(|d2 - d1| / 86400000)`: absolute difference in civil days. -/
def dayDiff (d1 d2 : Date) : Nat :=
  ((dayNumber d2 : Int) - (dayNumber d1 : Int)).natAbs

/-- Date ordering: `a.date.localeCompare(b.date) ≤ 0` on canonical date strings:
lexicographic order on the triple. -/
def dateLe (a b : Date) : Bool :=
  a.y < b.y || (a.y == b.y && (a.m < b.m || (a.m == b.m && a.d ≤ b.d)))

/-- The days of a month, in order (`eachDayOfInterval(monthStart, monthEnd)`). -/
def monthDays (y m : Nat) : List Date :=
  (List.range (daysInMonth y m)).map (fun i => ⟨y, m, i + 1⟩)

/-- Roster role `person.role`: `'first' | 'others' | 'both'`. -/
inductive Role where
  | first
  | others
  | both
deriving DecidableEq, Repr

/-- Shift level.  The TS type lists `'1A' | '1B' | '2' | '3'`, but the code
builds levels `` `1${String.fromCharCode(65 + i)}` `` for `i` below the
configurable `firstCallCount` (the UI allows up to 5), so `first 0 = 1A`,
`first 1 = 1B`, `first 2 = 1C`, … -/
inductive Level where
  | first (i : Nat)
  | second
  | third
deriving DecidableEq, Repr

/-- Whether the level is a first-call letter: `level.startsWith('1')`. -/
def Level.isFirst : Level → Bool
  | .first _ => true
  | _ => false

/-- A roster entry (`interface Person`); only the fields the engine reads. -/
structure Person where
  id : String
  role : Role
  group : Option String
  unavailableDates : List Date
  targetTotal : Option Int
  targetHoliday : Option Int
  targetWeekday : Option Int
deriving DecidableEq, Repr

/-- ASCII lower-casing of one character (`String.prototype.toLowerCase` on
the ASCII tags the engine compares against). -/
def lowerChar (c : Char) : Char :=
  if 'A' ≤ c && c ≤ 'Z' then Char.ofNat (c.toNat + 32) else c

/-- Is the character trimmed by `String.prototype.trim`? -/
def isTrimmed (c : Char) : Bool :=
  c == ' ' || c == '\t' || c == '\n' || c == '\r'

/-- Group-tag normalisation `(person.group || '').toLowerCase().trim()`, computed on the character
list so that it reduces inside the kernel. -/
def normGroup (g : Option String) : String :=
  String.mk
    ((((((g.getD "").data).map lowerChar).dropWhile isTrimmed).reverse.dropWhile
        isTrimmed).reverse)

/-- An assignment (`interface Shift`).  The sentinel person id `"LOCKED"`
marks a locked/blocked slot. -/
structure Shift where
  date : Date
  personId : String
  level : Level
deriving DecidableEq, Repr

/-- The locked-slot sentinel person id. -/
def lockedId : String := "LOCKED"

/-! ## Manual-edit validator (`validatePlacement`)

Two entry points in the source: `toggleShift` (calendar view, add/toggle) and
`updateShift` (table view, replace-or-add).  On rejection the source `alert`s
and returns without calling `setShifts`; we return the outcome tag together
with the resulting assignment list (the input list itself on rejection). -/

/-- Outcome of a `toggleShift` call. -/
inductive ToggleOutcome where
  | removed
  | limitReached
  | firstCallPairBlocked
  | added
deriving DecidableEq, Repr

/-- The `limits` object `{ '1A': 1, '1B': 1, '2': 1, '3': 1 }`; indexing it
with any other level yields `undefined` (and `count >= undefined` is false). -/
def limits : Level → Option Nat
  | .first 0 => some 1
  | .first 1 => some 1
  | .second => some 1
  | .third => some 1
  | .first (_ + 2) => none

/-- Is the level `'1A'` or `'1B'` (the only pair the manual validator guards)? -/
def isABLevel (l : Level) : Bool :=
  l == .first 0 || l == .first 1

/-- The `toggleShift` handler from `App.tsx`. -/
def toggleShift (shifts : List Shift) (date : Date) (personId : String)
    (level : Level) : ToggleOutcome × List Shift :=
  if shifts.any (fun s => s.date == date && s.personId == personId && s.level == level) then
    (.removed,
      shifts.filter (fun s => !(s.date == date && s.personId == personId && s.level == level)))
  else
    let shiftsOnDate := shifts.filter (fun s => s.date == date)
    let levelCount := (shiftsOnDate.filter (fun s => s.level == level)).length
    let capReject : Bool :=
      match limits level with
      | some lim => decide (lim ≤ levelCount)
      | none => false
    if capReject then
      (.limitReached, shifts)
    else if isABLevel level &&
        shiftsOnDate.any (fun s => isABLevel s.level && s.personId == personId) then
      (.firstCallPairBlocked, shifts)
    else
      (.added, shifts ++ [⟨date, personId, level⟩])

/-- Outcome of an `updateShift` call. -/
inductive UpdateOutcome where
  | firstCallPairBlocked
  | applied
deriving DecidableEq, Repr

/-- The `updateShift` handler from `App.tsx`.  `old?` is the possibly-undefined
`oldPersonId`; an empty `newPersonId` string is falsy in JS, turning the call
into a pure removal. -/
def updateShift (shifts : List Shift) (date : Date) (level : Level)
    (old? : Option String) (newPersonId : String) : UpdateOutcome × List Shift :=
  let updated :=
    match old? with
    | some oldId =>
        shifts.eraseP (fun s => s.date == date && s.level == level && s.personId == oldId)
    | none => shifts
  if newPersonId ≠ "" then
    let blocked :=
      if isABLevel level then
        let otherLevel : Level := if level == .first 0 then .first 1 else .first 0
        updated.any (fun s =>
          s.date == date && s.level == otherLevel && s.personId == newPersonId)
      else false
    if blocked then
      (.firstCallPairBlocked, shifts)
    else if updated.any (fun s =>
        s.date == date && s.level == level && s.personId == newPersonId) then
      (.applied, updated)
    else
      (.applied, updated ++ [⟨date, newPersonId, level⟩])
  else
    (.applied, updated)

/-! ## Conflicts & Warnings report (`reportConflicts`)

The render loop sorts one person's current-month shifts by date and pushes a
violation for each shift on an unavailable date, a "consecutive" finding for
each sort-adjacent pair one day apart and a "one-day-gap" finding for each
pair two days apart.  We keep the underlying dates instead of the display
strings the code formats. -/

/-- Insert into a sorted list, before the first element it may precede. -/
def jsInsert (le : α → α → Bool) (a : α) : List α → List α
  | [] => [a]
  | b :: bs => if le a b then a :: b :: bs else b :: jsInsert le a bs

/-- Stable sort by a boolean "may come before" relation.  `Array.prototype
.sort` with a consistent comparator `cmp` returns the unique stable
`cmp`-sorted permutation, which this insertion sort also computes; we use it
(rather than a well-founded merge sort) so that runs reduce inside the
kernel. -/
def jsSort (le : α → α → Bool) : List α → List α
  | [] => []
  | a :: as => jsInsert le a (jsSort le as)

/-- Findings for one person/month. -/
structure ConflictReport where
  violations : List Date
  consecutive : List (Date × Date)
  oneDayGap : List (Date × Date)
deriving DecidableEq, Repr

/-- One person's current-month shifts, sorted by `localeCompare` on the date
string. -/
def personMonthShifts (person : Person) (shifts : List Shift) (y m : Nat) :
    List Shift :=
  jsSort (fun a b => dateLe a.date b.date)
    (shifts.filter (fun s =>
      s.personId == person.id && s.date.y == y && s.date.m == m))

/-- The conflicts report for one person and month. -/
def reportFor (person : Person) (shifts : List Shift) (y m : Nat) :
    ConflictReport :=
  let sorted := personMonthShifts person shifts y m
  { violations :=
      ((sorted.filter (fun s => person.unavailableDates.contains s.date)).map (·.date))
  , consecutive :=
      (((sorted.zip sorted.tail).filter
          (fun p => dayDiff p.1.date p.2.date == 1)).map
        (fun p => (p.1.date, p.2.date)))
  , oneDayGap :=
      (((sorted.zip sorted.tail).filter
          (fun p => dayDiff p.1.date p.2.date == 2)).map
        (fun p => (p.1.date, p.2.date))) }

/-- A person's row is omitted from the conflicts table (reported
conflict-free) when all three lists are empty. -/
def conflictFree (person : Person) (shifts : List Shift) (y m : Nat) : Bool :=
  let r := reportFor person shifts y m
  r.violations.isEmpty && r.consecutive.isEmpty && r.oneDayGap.isEmpty

/-! ## Auto-fill scheduler (`generateSchedule` / `autoFillMonth`)

The source keys everything off the component state: `people` (the roster),
`holidays` and `manualHighlights` (externally supplied holiday/highlight
configuration) and the current month.  We bundle these into `GenEnv`.
`firstCallCount` stays a separate argument, as in the claims. -/

/-- Holiday record `{ date, name }`. -/
structure Holiday where
  date : Date
  name : String
deriving DecidableEq, Repr

/-- Environment of a `generateSchedule` run. -/
structure GenEnv where
  people : List Person
  holidays : List Holiday
  highlights : List Date
  year : Nat
  month : Nat

/-- Month membership `s.date.startsWith(monthStr)` for the target month. -/
def inMonth (env : GenEnv) (dt : Date) : Bool :=
  dt.y == env.year && dt.m == env.month

/-- Holiday-type classification of a date: weekend, configured holiday, or
manually highlighted. -/
def isHolDay (env : GenEnv) (dt : Date) : Bool :=
  isWeekendDay dt || env.holidays.any (fun h => h.date == dt)
    || env.highlights.contains dt

/-- Running per-person tallies (`{ total, hol, wk }`). -/
structure Cnt where
  total : Nat
  hol : Nat
  wk : Nat
deriving DecidableEq, Repr

/-- The tallies record, keyed by person id. -/
def Counts := String → Cnt

/-- One step of the tally-initialisation loop: bump the entry of the shift's
person if the roster has such an entry (`if (counts[s.personId])`). -/
def bumpCounts (env : GenEnv) (c : Counts) (s : Shift) : Counts :=
  if env.people.any (fun p => p.id == s.personId) then
    fun pid =>
      if pid == s.personId then
        { total := (c pid).total + 1
        , hol := if isHolDay env s.date then (c pid).hol + 1 else (c pid).hol
        , wk := if isHolDay env s.date then (c pid).wk else (c pid).wk + 1 }
      else c pid
  else c

/-- Initial tallies: fold the bump over the current-month shifts. -/
def initCounts (env : GenEnv) (shifts : List Shift) : Counts :=
  (shifts.filter (fun s => inMonth env s.date)).foldl (bumpCounts env) (fun _ => ⟨0, 0, 0⟩)

/-- State threaded through the day/slot iteration: the in-progress assignment
list and the running tallies. -/
structure GenState where
  shifts : List Shift
  counts : Counts

/-- The slot list of one day: second call, third call, then the first-call
columns `1A`, `1B`, … up to `firstCallCount`.  The slot's call type is
determined by the level (`role: 'others'` for 2/3, `role: 'first'` for `1x`). -/
def slotsForDay (fc : Nat) : List Level :=
  [Level.second, Level.third] ++ (List.range fc).map Level.first

/-- The slot's role filter: first-call slots exclude `'others'` people and
other-call slots exclude `'first'` people (`'both'` passes everywhere). -/
def roleOk (lvl : Level) (p : Person) : Bool :=
  if lvl.isFirst && p.role == .others then false
  else if !lvl.isFirst && p.role == .first then false
  else true

/-- The check `person.targetTotal !== undefined && person.targetTotal > 0 &&
counts[person.id].total >= person.targetTotal`. -/
def capTotalHit (c : Counts) (p : Person) : Bool :=
  match p.targetTotal with
  | some t => decide (0 < t) && decide (t ≤ ((c p.id).total : Int))
  | none => false

/-- The analogous holiday-target check. -/
def capHolHit (c : Counts) (p : Person) : Bool :=
  match p.targetHoliday with
  | some t => decide (0 < t) && decide (t ≤ ((c p.id).hol : Int))
  | none => false

/-- The analogous weekday-target check. -/
def capWkHit (c : Counts) (p : Person) : Bool :=
  match p.targetWeekday with
  | some t => decide (0 < t) && decide (t ≤ ((c p.id).wk : Int))
  | none => false

/-- Fairness-cap exclusions against the running tallies. -/
def capsOk (isHol : Bool) (c : Counts) (p : Person) : Bool :=
  if capTotalHit c p then false
  else if isHol && capHolHit c p then false
  else if !isHol && capWkHit c p then false
  else true

/-- Is the person already assigned anywhere on this date? -/
def assignedOnDate (shifts : List Shift) (day : Date) (p : Person) : Bool :=
  shifts.any (fun s => s.date == day && s.personId == p.id)

/-- Does the person hold an assignment on the immediately preceding or
following calendar date (checked against the whole assignment list)? -/
def adjacentDay (shifts : List Shift) (day : Date) (p : Person) : Bool :=
  shifts.any (fun s =>
    s.personId == p.id && (s.date == prevDay day || s.date == nextDay day))

/-- Group of the person a shift is assigned to, resolved through the roster
(`people.find(p => p.id === shift.personId)`); empty when unknown. -/
def groupOf (env : GenEnv) (pid : String) : String :=
  match env.people.find? (fun p => p.id == pid) with
  | some q => normGroup q.group
  | none => normGroup none

/-- The R / All-Calls group-exclusion check of the scheduler: an `"r"`-tagged
candidate for a first-call slot is blocked when the day's second call (the
first such shift in the list) is held by an `"all calls"` person, and an
`"all calls"` candidate for the second-call slot is blocked when any
first-call shift of the day is held by an `"r"` person. -/
def groupOk (env : GenEnv) (shifts : List Shift) (day : Date) (lvl : Level)
    (p : Person) : Bool :=
  if lvl.isFirst then
    if normGroup p.group == "r" then
      match shifts.find? (fun s => s.date == day && s.level == Level.second) with
      | some secondCall => !(groupOf env secondCall.personId == "all calls")
      | none => true
    else true
  else if lvl == Level.second then
    if normGroup p.group == "all calls" then
      !((shifts.filter (fun s => s.date == day && s.level.isFirst)).any
          (fun fc => groupOf env fc.personId == "r"))
    else true
  else true

/-- The eligibility predicate of one slot (the body of `people.filter`),
written as the conjunction of the source's early-return checks. -/
def eligPred (env : GenEnv) (st : GenState) (day : Date) (isHol : Bool)
    (lvl : Level) (p : Person) : Bool :=
  roleOk lvl p
    && !(p.unavailableDates.contains day)
    && capsOk isHol st.counts p
    && !(assignedOnDate st.shifts day p)
    && !(adjacentDay st.shifts day p)
    && groupOk env st.shifts day lvl p

/-- The eligible-candidate list of a slot. -/
def eligible (env : GenEnv) (st : GenState) (day : Date) (isHol : Bool)
    (lvl : Level) : List Person :=
  env.people.filter (eligPred env st day isHol lvl)

/-- JS truthiness of `person.targetTotal` (`undefined` and `0` are falsy). -/
def truthyTarget (p : Person) : Bool :=
  match p.targetTotal with
  | some t => t != 0
  | none => false

/-- The "need" score used by the comparator when the pair involves a set
total target. -/
def needOf (c : Counts) (p : Person) : Int :=
  match p.targetTotal with
  | some t => if t != 0 then t - ((c p.id).total : Int) else -((c p.id).total : Int)
  | none => -((c p.id).total : Int)

/-- The candidate comparator passed to `bestCandidates.sort`, returning the
JS comparator value. -/
def cmpCand (isHol : Bool) (c : Counts) (a b : Person) : Int :=
  if (truthyTarget a || truthyTarget b) && needOf c a != needOf c b then
    needOf c b - needOf c a
  else if isHol && (c a.id).hol != (c b.id).hol then
    ((c a.id).hol : Int) - ((c b.id).hol : Int)
  else if !isHol && (c a.id).wk != (c b.id).wk then
    ((c a.id).wk : Int) - ((c b.id).wk : Int)
  else
    ((c a.id).total : Int) - ((c b.id).total : Int)

/-- The relation `cmpCand … ≤ 0` as the boolean "may come before" relation; JS `sort` with
a consistent comparator is modelled as a stable merge sort under it. -/
def candLe (isHol : Bool) (c : Counts) (a b : Person) : Bool :=
  decide (cmpCand isHol c a b ≤ 0)

/-- The softer 2-day buffer: candidates with no assignment two days before or
after, with fallback to the full eligible set when that filter empties it. -/
def bestCandidates (st : GenState) (day : Date) (elig : List Person) :
    List Person :=
  let pref := elig.filter (fun p =>
    !st.shifts.any (fun s =>
      s.personId == p.id &&
        (s.date == prevDay (prevDay day) || s.date == nextDay (nextDay day))))
  if pref.isEmpty then elig else pref

/-- Winner bump `counts[selected.id].total++` (and the matching `hol`/`wk` bump). -/
def bumpSel (c : Counts) (selId : String) (isHol : Bool) : Counts :=
  fun pid =>
    if pid == selId then
      { total := (c pid).total + 1
      , hol := if isHol then (c pid).hol + 1 else (c pid).hol
      , wk := if isHol then (c pid).wk else (c pid).wk + 1 }
    else c pid

/-- Fill one slot: skip it if it already holds an assignment, otherwise pick
the first candidate of the sorted best-candidate list, append the new shift
and bump the winner's tallies. -/
def fillSlot (env : GenEnv) (day : Date) (isHol : Bool) (st : GenState)
    (lvl : Level) : GenState :=
  match st.shifts.find? (fun s => s.date == day && s.level == lvl) with
  | some _ => st
  | none =>
    let elig := eligible env st day isHol lvl
    if elig.isEmpty then st
    else
      match (jsSort (candLe isHol st.counts) (bestCandidates st day elig)).head? with
      | none => st
      | some sel =>
          { shifts := st.shifts ++ [⟨day, sel.id, lvl⟩]
          , counts := bumpSel st.counts sel.id isHol }

/-- Fill every slot of one day. -/
def fillDay (env : GenEnv) (fc : Nat) (st : GenState) (day : Date) : GenState :=
  (slotsForDay fc).foldl (fillSlot env day (isHolDay env day)) st

/-- The `generateSchedule` handler (the spec's `autoFillMonth`): initialise the tallies
from the target month's shifts, then fill the month's empty slots day by day. -/
def generateSchedule (env : GenEnv) (fc : Nat) (shifts : List Shift) :
    List Shift :=
  ((monthDays env.year env.month).foldl (fillDay env fc)
    ⟨shifts, initCounts env shifts⟩).shifts

/-- Componentwise order on tallies. -/
def cntLe (a b : Cnt) : Prop := a.total ≤ b.total ∧ a.hol ≤ b.hol ∧ a.wk ≤ b.wk

/-- The pass only appends shifts and only grows tallies. -/
def StateStep (st st' : GenState) : Prop :=
  (∃ t, st'.shifts = st.shifts ++ t) ∧ ∀ pid, cntLe (st.counts pid) (st'.counts pid)

/-- The day/slot iteration flattened to a single slot list. -/
def fillPair (env : GenEnv) (st : GenState) (x : Date × Level) : GenState :=
  fillSlot env x.1 (isHolDay env x.1) st x.2

/-- The month's slot list in processing order. -/
def monthSlots (env : GenEnv) (fc : Nat) : List (Date × Level) :=
  (monthDays env.year env.month).flatMap
    (fun d => (slotsForDay fc).map (fun l => (d, l)))

/-- The running tallies always equal the tallies recomputed from the current
assignment list (the coupling invariant of the mutable `counts` object). -/
def CountsInv (env : GenEnv) (st : GenState) : Prop :=
  ∀ pid, st.counts pid = initCounts env st.shifts pid

/-- A person's number of assignments inside the target month. -/
def monthTotal (env : GenEnv) (shifts : List Shift) (pid : String) : Nat :=
  (shifts.filter (fun s => inMonth env s.date && s.personId == pid)).length

/-- No person holds two distinct first-call letters on one date. -/
def FirstCallOK (shifts : List Shift) : Prop :=
  shifts.Pairwise (fun s1 s2 => ¬(s1.personId = s2.personId ∧ s1.date = s2.date ∧
    s1.level.isFirst = true ∧ s2.level.isFirst = true ∧ s1.level ≠ s2.level))

/-- The group-exclusion invariant: no date holds both a first-call shift of
an `"r"`-tagged person and a second-call shift of an `"all calls"`-tagged
person (tags resolved through the roster). -/
def GroupOK (env : GenEnv) (shifts : List Shift) : Prop :=
  ∀ s1 ∈ shifts, ∀ s2 ∈ shifts,
    ¬(s1.date = s2.date ∧ s1.level.isFirst = true ∧
      groupOf env s1.personId = "r" ∧ s2.level = Level.second ∧
      groupOf env s2.personId = "all calls")

/-- At most one second-call assignment per date. -/
def SecondUnique (shifts : List Shift) : Prop :=
  shifts.Pairwise (fun s1 s2 => ¬(s1.date = s2.date ∧ s1.level = Level.second ∧
    s2.level = Level.second))

/-- Roster for the group-exclusion counterexample: an `"R"`-tagged person and
an `"All Calls"`-tagged person. -/
def personR1 : Person :=
  { id := "r1", role := Role.first, group := some "R", unavailableDates := []
  , targetTotal := none, targetHoliday := none, targetWeekday := none }

/-- Second roster entry of the counterexample. -/
def personA2 : Person :=
  { id := "a2", role := Role.others, group := some "All Calls"
  , unavailableDates := [], targetTotal := none, targetHoliday := none
  , targetWeekday := none }

/-- Environment of the group-exclusion counterexample. -/
def envC1 : GenEnv :=
  { people := [personR1, personA2], holidays := [], highlights := []
  , year := 2026, month := 2 }

/-- First roster entry of the adjacency scenario (first-call role, no
targets, no restrictions). -/
def personC6A : Person :=
  { id := "A", role := Role.first, group := none, unavailableDates := []
  , targetTotal := none, targetHoliday := none, targetWeekday := none }

/-- Second roster entry of the adjacency scenario. -/
def personC6B : Person :=
  { id := "B", role := Role.first, group := none, unavailableDates := []
  , targetTotal := none, targetHoliday := none, targetWeekday := none }

/-- Environment of the adjacency scenario: February 2026, no holidays or
highlights. -/
def envC6 : GenEnv :=
  { people := [personC6A, personC6B], holidays := [], highlights := []
  , year := 2026, month := 2 }

/-- Input of the adjacency scenario: A already holds `1A` on day 1. -/
def inputC6 : List Shift := [⟨⟨2026, 2, 1⟩, "A", Level.first 0⟩]

/-- JS truthiness of `person.targetTotal` and the need score used by the
comparator; the comparator as the specification words it.  Modelled from the
spec for refutation: the spec's key (a) compares the need score for *every*
pair, whereas the code's comparator consults it only when at least one of
the two candidates has a set total target. -/
def specCmp (isHol : Bool) (c : Counts) (a b : Person) : Int :=
  if needOf c a != needOf c b then
    needOf c b - needOf c a
  else if isHol && (c a.id).hol != (c b.id).hol then
    ((c a.id).hol : Int) - ((c b.id).hol : Int)
  else if !isHol && (c a.id).wk != (c b.id).wk then
    ((c a.id).wk : Int) - ((c b.id).wk : Int)
  else
    ((c a.id).total : Int) - ((c b.id).total : Int)

/-- The relation `specCmp … ≤ 0` as a boolean relation. -/
def specCandLe (isHol : Bool) (c : Counts) (a b : Person) : Bool :=
  decide (specCmp isHol c a b ≤ 0)

/-- All February 2026 days except the 7th. -/
def febExcept7 : List Date :=
  (monthDays 2026 2).filter (fun d => d ≠ ⟨2026, 2, 7⟩)

/-- Candidate `p` of the tie-break counterexample: one prior holiday shift
(Sunday Feb 1), so total 1 and holiday count 1. -/
def personC7P : Person :=
  { id := "p", role := Role.others, group := none
  , unavailableDates := febExcept7, targetTotal := none, targetHoliday := none
  , targetWeekday := none }

/-- Candidate `q` of the tie-break counterexample: two prior weekday shifts,
so total 2 and holiday count 0. -/
def personC7Q : Person :=
  { id := "q", role := Role.others, group := none
  , unavailableDates := febExcept7, targetTotal := none, targetHoliday := none
  , targetWeekday := none }

/-- Environment of the tie-break counterexample. -/
def envC7 : GenEnv :=
  { people := [personC7P, personC7Q], holidays := [], highlights := []
  , year := 2026, month := 2 }

/-- Input of the tie-break counterexample: p on Sunday Feb 1 (holiday-type),
q on the weekdays Feb 3 and Feb 11. -/
def inputC7 : List Shift :=
  [⟨⟨2026, 2, 1⟩, "p", Level.second⟩, ⟨⟨2026, 2, 3⟩, "q", Level.second⟩,
    ⟨⟨2026, 2, 11⟩, "q", Level.second⟩]

/-- The scheduler state when the slot (Saturday 2026-02-07, second call) is
processed: nothing earlier in the pass is fillable, so it is the initial
state. -/
def stC7 : GenState := ⟨inputC7, initCounts envC7 inputC7⟩


theorem needOf_nonpos {c : Counts} {p : Person}
    (h : truthyTarget p = false) : needOf c p ≤ 0 := by
  unfold truthyTarget at h
  unfold needOf
  cases ht : p.targetTotal with
  | none =>
      dsimp only
      omega
  | some t =>
      rw [ht] at h
      simp only [bne_iff_ne, ne_eq, decide_eq_false_iff_not, not_not] at h
      dsimp only
      rw [if_neg (by simp [h])]
      omega

/-- The tail of the comparator: day-type count, then total (the comparison
the code falls through to when the need key is skipped or tied). -/
def restCmp (isHol : Bool) (c : Counts) (a b : Person) : Int :=
  if isHol && (c a.id).hol != (c b.id).hol then
    ((c a.id).hol : Int) - ((c b.id).hol : Int)
  else if !isHol && (c a.id).wk != (c b.id).wk then
    ((c a.id).wk : Int) - ((c b.id).wk : Int)
  else
    ((c a.id).total : Int) - ((c b.id).total : Int)

/-- The selection order as a lexicographic key: candidates with a set total
target first, ordered by descending need; then the matching day-type count;
then the total. -/
def selKey (isHol : Bool) (c : Counts) (p : Person) : Int × Int × Int × Int :=
  ( if truthyTarget p then 0 else 1
  , if truthyTarget p then -needOf c p else 0
  , if isHol then ((c p.id).hol : Int) else ((c p.id).wk : Int)
  , ((c p.id).total : Int) )

/-- Lexicographic order on the four-component key. -/
def lexLe4 (k k' : Int × Int × Int × Int) : Prop :=
  k.1 < k'.1 ∨ (k.1 = k'.1 ∧ (k.2.1 < k'.2.1 ∨ (k.2.1 = k'.2.1 ∧
    (k.2.2.1 < k'.2.2.1 ∨ (k.2.2.1 = k'.2.2.1 ∧ k.2.2.2 ≤ k'.2.2.2)))))

/-- A plain `others`-role person for the conflict-report cases. -/
def personC8 : Person :=
  { id := "c8", role := Role.others, group := none, unavailableDates := []
  , targetTotal := none, targetHoliday := none, targetWeekday := none }

/-- The same person with 2026-02-10 marked unavailable. -/
def personC8V : Person :=
  { id := "c8", role := Role.others, group := none
  , unavailableDates := [⟨2026, 2, 10⟩], targetTotal := none
  , targetHoliday := none, targetWeekday := none }

/-- A `both`-role person with a total target of 1, for the fairness-cap
witness. -/
def personT4 : Person :=
  { id := "t", role := Role.both, group := none, unavailableDates := []
  , targetTotal := some 1, targetHoliday := none, targetWeekday := none }

/-- Single-person environment for the fairness-cap witness. -/
def envC4 : GenEnv :=
  { people := [personT4], holidays := [], highlights := []
  , year := 2026, month := 2 }

/-- Empty-roster environment for the frame witness. -/
def envE : GenEnv :=
  { people := [], holidays := [], highlights := [], year := 2026, month := 2 }

/-! ## Infrastructure lemmas -/

theorem jsInsert_ne_nil {α : Type _} (le : α → α → Bool) (a : α) (l : List α) :
    jsInsert le a l ≠ [] := by
  cases l with
  | nil => simp [jsInsert]
  | cons b bs =>
      unfold jsInsert
      split <;> simp

theorem mem_jsInsert {α : Type _} {le : α → α → Bool} {a x : α} {l : List α} :
    x ∈ jsInsert le a l ↔ x = a ∨ x ∈ l := by
  induction l with
  | nil => simp [jsInsert]
  | cons b bs ih =>
      unfold jsInsert
      split
      · simp
      · simp [ih]
        tauto

theorem mem_jsSort {α : Type _} {le : α → α → Bool} {x : α} {l : List α} :
    x ∈ jsSort le l ↔ x ∈ l := by
  induction l with
  | nil => simp [jsSort]
  | cons a as ih => simp [jsSort, mem_jsInsert, ih]

theorem jsSort_eq_nil_iff {α : Type _} {le : α → α → Bool} {l : List α} :
    jsSort le l = [] ↔ l = [] := by
  cases l with
  | nil => simp [jsSort]
  | cons a as => simp [jsSort, jsInsert_ne_nil]

theorem head?_mem {α : Type _} {l : List α} {a : α} (h : l.head? = some a) :
    a ∈ l := by
  cases l with
  | nil => simp at h
  | cons b t =>
      simp [List.head?] at h
      subst h
      exact List.mem_cons_self _ _

theorem foldl_inv {σ α : Type _} {P : σ → Prop} {f : σ → α → σ} (l : List α) :
    ∀ (s : σ), (∀ s' a, a ∈ l → P s' → P (f s' a)) → P s → P (l.foldl f s) := by
  induction l with
  | nil => intro s _ hs; simpa using hs
  | cons a t ih =>
      intro s h hs
      simp only [List.foldl_cons]
      exact ih _ (fun s' b hb => h s' b (by simp [hb])) (h s a (by simp) hs)

theorem mem_bestCandidates {st : GenState} {day : Date} {elig : List Person}
    {p : Person} (h : p ∈ bestCandidates st day elig) : p ∈ elig := by
  unfold bestCandidates at h
  dsimp only at h
  split at h
  · exact h
  · exact (List.mem_filter.mp h).1

theorem bestCandidates_ne_nil {st : GenState} {day : Date} {elig : List Person}
    (h : elig ≠ []) : bestCandidates st day elig ≠ [] := by
  unfold bestCandidates
  dsimp only
  split
  · exact h
  · next hne => simpa using hne

theorem eligible_subset_people {env : GenEnv} {st : GenState} {day : Date}
    {isHol : Bool} {lvl : Level} {p : Person}
    (h : p ∈ eligible env st day isHol lvl) : p ∈ env.people :=
  (List.mem_filter.mp h).1

theorem eligPred_of_mem_eligible {env : GenEnv} {st : GenState} {day : Date}
    {isHol : Bool} {lvl : Level} {p : Person}
    (h : p ∈ eligible env st day isHol lvl) :
    eligPred env st day isHol lvl p = true :=
  (List.mem_filter.mp h).2

/-- Exhaustive description of one `fillSlot` step: either the state is
returned unchanged (slot occupied or no eligible candidate), or exactly one
shift for this slot is appended and the winner's tallies are bumped. -/
theorem fillSlot_spec (env : GenEnv) (day : Date) (isHol : Bool)
    (st : GenState) (lvl : Level) :
    (fillSlot env day isHol st lvl = st ∧
      ((st.shifts.find? (fun s => s.date == day && s.level == lvl)).isSome ∨
        eligible env st day isHol lvl = [])) ∨
    ∃ sel,
      st.shifts.find? (fun s => s.date == day && s.level == lvl) = none ∧
      (jsSort (candLe isHol st.counts)
          (bestCandidates st day (eligible env st day isHol lvl))).head? = some sel ∧
      sel ∈ eligible env st day isHol lvl ∧
      fillSlot env day isHol st lvl =
        ⟨st.shifts ++ [⟨day, sel.id, lvl⟩], bumpSel st.counts sel.id isHol⟩ := by
  unfold fillSlot
  split
  · next s hf => exact Or.inl ⟨rfl, Or.inl (by simp [hf])⟩
  · next hf =>
      dsimp only
      split
      · next hE =>
          exact Or.inl ⟨rfl, Or.inr (by simpa [List.isEmpty_iff] using hE)⟩
      · next hE =>
          split
          · next hh =>
              exfalso
              have hne : eligible env st day isHol lvl ≠ [] := by
                simpa [List.isEmpty_iff] using hE
              have : jsSort (candLe isHol st.counts)
                  (bestCandidates st day (eligible env st day isHol lvl)) ≠ [] := by
                simpa [jsSort_eq_nil_iff] using bestCandidates_ne_nil hne
              rcases hx : jsSort (candLe isHol st.counts)
                  (bestCandidates st day (eligible env st day isHol lvl)) with _ | ⟨a, t⟩
              · exact this hx
              · rw [hx] at hh; simp at hh
          · next sel hh =>
              refine Or.inr ⟨sel, hf, hh, ?_, rfl⟩
              exact mem_bestCandidates (mem_jsSort.mp (head?_mem hh))

theorem StateStep.refl (st : GenState) : StateStep st st :=
  ⟨⟨[], by simp⟩, fun _ => ⟨le_rfl, le_rfl, le_rfl⟩⟩

theorem StateStep.trans {s1 s2 s3 : GenState} (h1 : StateStep s1 s2)
    (h2 : StateStep s2 s3) : StateStep s1 s3 := by
  obtain ⟨⟨t1, ht1⟩, hc1⟩ := h1
  obtain ⟨⟨t2, ht2⟩, hc2⟩ := h2
  refine ⟨⟨t1 ++ t2, by simp [ht2, ht1]⟩, fun pid => ?_⟩
  obtain ⟨a1, b1, c1⟩ := hc1 pid
  obtain ⟨a2, b2, c2⟩ := hc2 pid
  exact ⟨a1.trans a2, b1.trans b2, c1.trans c2⟩

theorem cntLe_bumpSel (c : Counts) (selId : String) (isHol : Bool)
    (pid : String) : cntLe (c pid) (bumpSel c selId isHol pid) := by
  unfold bumpSel
  split
  · refine ⟨Nat.le_succ _, ?_, ?_⟩ <;> split <;> simp
  · exact ⟨le_rfl, le_rfl, le_rfl⟩

theorem fillSlot_stateStep (env : GenEnv) (day : Date) (isHol : Bool)
    (st : GenState) (lvl : Level) :
    StateStep st (fillSlot env day isHol st lvl) := by
  rcases fillSlot_spec env day isHol st lvl with ⟨heq, _⟩ | ⟨sel, _, _, _, heq⟩
  · rw [heq]; exact StateStep.refl st
  · rw [heq]
    exact ⟨⟨[⟨day, sel.id, lvl⟩], rfl⟩, fun pid => cntLe_bumpSel _ _ _ _⟩

theorem fillDay_eq_foldl (env : GenEnv) (fc : Nat) (st : GenState) (day : Date) :
    fillDay env fc st day =
      ((slotsForDay fc).map (fun l => (day, l))).foldl (fillPair env) st := by
  unfold fillDay
  rw [List.foldl_map]
  rfl

theorem foldl_fillDay_eq (env : GenEnv) (fc : Nat) :
    ∀ (days : List Date) (st : GenState),
      days.foldl (fillDay env fc) st =
        (days.flatMap (fun d => (slotsForDay fc).map (fun l => (d, l)))).foldl
          (fillPair env) st := by
  intro days
  induction days with
  | nil => intro st; rfl
  | cons d ds ih =>
      intro st
      rw [List.foldl_cons, ih, List.flatMap_cons, List.foldl_append,
        fillDay_eq_foldl]

theorem generateSchedule_eq_foldl (env : GenEnv) (fc : Nat) (shifts : List Shift) :
    generateSchedule env fc shifts =
      ((monthSlots env fc).foldl (fillPair env)
        ⟨shifts, initCounts env shifts⟩).shifts := by
  unfold generateSchedule monthSlots
  rw [foldl_fillDay_eq]

theorem monthSlots_inMonth (env : GenEnv) (fc : Nat) {x : Date × Level}
    (hx : x ∈ monthSlots env fc) : inMonth env x.1 = true := by
  unfold monthSlots at hx
  rw [List.mem_flatMap] at hx
  obtain ⟨d, hd, hx⟩ := hx
  rw [List.mem_map] at hx
  obtain ⟨l, _, rfl⟩ := hx
  unfold monthDays at hd
  rw [List.mem_map] at hd
  obtain ⟨i, _, rfl⟩ := hd
  simp [inMonth]

theorem foldl_fillPair_stateStep (env : GenEnv) (l : List (Date × Level)) :
    ∀ st : GenState, StateStep st (l.foldl (fillPair env) st) := by
  induction l with
  | nil => intro st; exact StateStep.refl st
  | cons x xs ih =>
      intro st
      rw [List.foldl_cons]
      exact (fillSlot_stateStep env x.1 (isHolDay env x.1) st x.2).trans (ih _)

theorem initCounts_append (env : GenEnv) (l : List Shift) (s : Shift)
    (h : inMonth env s.date = true) :
    initCounts env (l ++ [s]) = bumpCounts env (initCounts env l) s := by
  unfold initCounts
  rw [List.filter_append, List.foldl_append]
  simp [h]

theorem bumpCounts_eq_bumpSel (env : GenEnv) (c : Counts) (day : Date)
    (selId : String) (lvl : Level)
    (hmem : env.people.any (fun p => p.id == selId) = true) :
    bumpCounts env c ⟨day, selId, lvl⟩ = bumpSel c selId (isHolDay env day) := by
  unfold bumpCounts bumpSel
  simp [hmem]

theorem fillPair_countsInv (env : GenEnv) {st : GenState} (x : Date × Level)
    (hx : inMonth env x.1 = true) (h : CountsInv env st) :
    CountsInv env (fillPair env st x) := by
  rcases fillSlot_spec env x.1 (isHolDay env x.1) st x.2 with
    ⟨heq, _⟩ | ⟨sel, _, _, hmem, heq⟩
  · unfold fillPair
    rw [heq]
    exact h
  · unfold fillPair
    rw [heq]
    intro pid
    have hmem' : env.people.any (fun p => p.id == sel.id) = true := by
      rw [List.any_eq_true]
      exact ⟨sel, eligible_subset_people hmem, by simp⟩
    show bumpSel st.counts sel.id (isHolDay env x.1) pid =
      initCounts env (st.shifts ++ [⟨x.1, sel.id, x.2⟩]) pid
    rw [initCounts_append env st.shifts _ hx,
      bumpCounts_eq_bumpSel env _ x.1 sel.id x.2 hmem']
    simp only [bumpSel, h pid]

theorem foldl_fillPair_countsInv (env : GenEnv) (l : List (Date × Level))
    (hl : ∀ x ∈ l, inMonth env x.1 = true) (st : GenState)
    (h : CountsInv env st) : CountsInv env (l.foldl (fillPair env) st) :=
  foldl_inv l st (fun _ x hx h' => fillPair_countsInv env x (hl x hx) h') h

theorem capTotalHit_mono {c c' : Counts} (hc : ∀ pid, cntLe (c pid) (c' pid))
    {p : Person} (h : capTotalHit c p = true) : capTotalHit c' p = true := by
  unfold capTotalHit at h ⊢
  cases ht : p.targetTotal with
  | none => rw [ht] at h; exact absurd h (by simp)
  | some t =>
      rw [ht] at h
      simp only [Bool.and_eq_true, decide_eq_true_eq] at h ⊢
      refine ⟨h.1, h.2.trans ?_⟩
      exact_mod_cast Int.ofNat_le.mpr (hc p.id).1

theorem capHolHit_mono {c c' : Counts} (hc : ∀ pid, cntLe (c pid) (c' pid))
    {p : Person} (h : capHolHit c p = true) : capHolHit c' p = true := by
  unfold capHolHit at h ⊢
  cases ht : p.targetHoliday with
  | none => rw [ht] at h; exact absurd h (by simp)
  | some t =>
      rw [ht] at h
      simp only [Bool.and_eq_true, decide_eq_true_eq] at h ⊢
      refine ⟨h.1, h.2.trans ?_⟩
      exact_mod_cast Int.ofNat_le.mpr (hc p.id).2.1

theorem capWkHit_mono {c c' : Counts} (hc : ∀ pid, cntLe (c pid) (c' pid))
    {p : Person} (h : capWkHit c p = true) : capWkHit c' p = true := by
  unfold capWkHit at h ⊢
  cases ht : p.targetWeekday with
  | none => rw [ht] at h; exact absurd h (by simp)
  | some t =>
      rw [ht] at h
      simp only [Bool.and_eq_true, decide_eq_true_eq] at h ⊢
      refine ⟨h.1, h.2.trans ?_⟩
      exact_mod_cast Int.ofNat_le.mpr (hc p.id).2.2

theorem capsOk_anti {c c' : Counts} (hc : ∀ pid, cntLe (c pid) (c' pid))
    {isHol : Bool} {p : Person} (h : capsOk isHol c' p = true) :
    capsOk isHol c p = true := by
  unfold capsOk at h ⊢
  by_cases h1 : capTotalHit c p = true
  · rw [capTotalHit_mono hc h1] at h
    simp at h
  · by_cases h2 : (isHol && capHolHit c p) = true
    · rw [Bool.and_eq_true] at h2
      rw [capHolHit_mono hc h2.2] at h
      simp [h2.1] at h
    · by_cases h3 : (!isHol && capWkHit c p) = true
      · rw [Bool.and_eq_true] at h3
        rw [capWkHit_mono hc h3.2] at h
        simp [h3.1] at h
      · simp only [h1, h2, h3, if_neg, Bool.false_eq_true, if_false]

theorem groupOk_anti (env : GenEnv) {sh t : List Shift} {day : Date}
    {lvl : Level} {p : Person} (h : groupOk env (sh ++ t) day lvl p = true) :
    groupOk env sh day lvl p = true := by
  unfold groupOk at h ⊢
  by_cases hf : lvl.isFirst = true
  · simp only [hf, if_true] at h ⊢
    by_cases hr : (normGroup p.group == "r") = true
    · simp only [hr, if_true] at h ⊢
      cases hfind : sh.find? (fun s => s.date == day && s.level == Level.second) with
      | none => simp
      | some sc =>
          have heq : (sh ++ t).find? (fun s => s.date == day && s.level == Level.second)
              = some sc := by
            rw [List.find?_append, hfind]
            rfl
          rw [heq] at h
          exact h
    · simp [hr]
  · simp only [hf] at h ⊢
    simp only [Bool.false_eq_true, if_false] at h ⊢
    by_cases hs : (lvl == Level.second) = true
    · simp only [hs, if_true] at h ⊢
      by_cases ha : (normGroup p.group == "all calls") = true
      · simp only [ha, if_true] at h ⊢
        rw [List.filter_append, List.any_append] at h
        cases hx : (List.filter (fun s => s.date == day && s.level.isFirst) sh).any
            (fun fc => groupOf env fc.personId == "r") with
        | false => simp [hx]
        | true =>
            rw [hx] at h
            simp at h
      · simp [ha]
    · simp [hs]

theorem eligPred_anti (env : GenEnv) {st st' : GenState} (h : StateStep st st')
    {day : Date} {isHol : Bool} {lvl : Level} {p : Person}
    (hp : eligPred env st' day isHol lvl p = true) :
    eligPred env st day isHol lvl p = true := by
  obtain ⟨⟨t, ht⟩, hc⟩ := h
  unfold eligPred at hp ⊢
  simp only [Bool.and_eq_true] at hp ⊢
  obtain ⟨⟨⟨⟨⟨h1, h2⟩, h3⟩, h4⟩, h5⟩, h6⟩ := hp
  rw [ht] at h4 h5 h6
  refine ⟨⟨⟨⟨⟨h1, h2⟩, ?_⟩, ?_⟩, ?_⟩, ?_⟩
  · by_cases hcap : capsOk isHol st.counts p = true
    · exact hcap
    · exact absurd (capsOk_anti hc (by exact h3)) hcap
  · unfold assignedOnDate at h4 ⊢
    rw [List.any_append] at h4
    simp only [Bool.not_eq_true', Bool.or_eq_false_iff] at h4
    simp [h4.1]
  · unfold adjacentDay at h5 ⊢
    rw [List.any_append] at h5
    simp only [Bool.not_eq_true', Bool.or_eq_false_iff] at h5
    simp [h5.1]
  · exact groupOk_anti env h6

theorem eligible_anti (env : GenEnv) {st st' : GenState} (h : StateStep st st')
    {day : Date} {isHol : Bool} {lvl : Level}
    (hnil : eligible env st day isHol lvl = []) :
    eligible env st' day isHol lvl = [] := by
  unfold eligible
  rw [List.filter_eq_nil_iff]
  intro p hp hpred
  have : p ∈ eligible env st day isHol lvl :=
    List.mem_filter.mpr ⟨hp, eligPred_anti env h hpred⟩
  rw [hnil] at this
  simp at this

theorem foldl_fillPair_fix (env : GenEnv) (l : List (Date × Level)) :
    ∀ st : GenState, (∀ x ∈ l, fillPair env st x = st) →
      l.foldl (fillPair env) st = st := by
  induction l with
  | nil => intro st _; rfl
  | cons x xs ih =>
      intro st h
      rw [List.foldl_cons, h x (by simp)]
      exact ih st (fun y hy => h y (by simp [hy]))

/-- Any slot of the processed list is saturated in the final state of a pass:
processing it again leaves the state unchanged. -/
theorem fillPair_fix_of_final (env : GenEnv) (slots : List (Date × Level))
    (st0 : GenState) {x : Date × Level} (hx : x ∈ slots) :
    fillPair env (slots.foldl (fillPair env) st0) x =
      slots.foldl (fillPair env) st0 := by
  cases hocc : (slots.foldl (fillPair env) st0).shifts.find?
      (fun s => s.date == x.1 && s.level == x.2) with
  | some s =>
      show fillSlot env x.1 (isHolDay env x.1) _ x.2 = _
      unfold fillSlot
      rw [hocc]
  | none =>
      obtain ⟨l₁, l₂, hsp⟩ := List.append_of_mem hx
      have hsplit : slots.foldl (fillPair env) st0 =
          l₂.foldl (fillPair env)
            (fillPair env (l₁.foldl (fillPair env) st0) x) := by
        rw [hsp, List.foldl_append, List.foldl_cons]
      have hs2f : StateStep (fillPair env (l₁.foldl (fillPair env) st0) x)
          (slots.foldl (fillPair env) st0) := by
        rw [hsplit]
        exact foldl_fillPair_stateStep env l₂ _
      obtain ⟨⟨t2, ht2⟩, _⟩ := hs2f
      have hocc2 : (fillPair env (l₁.foldl (fillPair env) st0) x).shifts.find?
          (fun s => s.date == x.1 && s.level == x.2) = none := by
        rw [ht2, List.find?_append] at hocc
        cases hh : (fillPair env (l₁.foldl (fillPair env) st0) x).shifts.find?
            (fun s => s.date == x.1 && s.level == x.2) with
        | none => rfl
        | some u =>
            rw [hh] at hocc
            simp [Option.or] at hocc
      rcases fillSlot_spec env x.1 (isHolDay env x.1)
          (l₁.foldl (fillPair env) st0) x.2 with
        ⟨heq, hside⟩ | ⟨sel, hf1, _, _, heq⟩
      · have hst21 : fillPair env (l₁.foldl (fillPair env) st0) x =
            l₁.foldl (fillPair env) st0 := heq
        rcases hside with hso | helig
        · rw [hst21] at hocc2
          rw [hocc2] at hso
          simp at hso
        · have hs1f : StateStep (l₁.foldl (fillPair env) st0)
              (slots.foldl (fillPair env) st0) := by
            rw [hsplit, hst21]
            exact foldl_fillPair_stateStep env l₂ _
          have heligf : eligible env (slots.foldl (fillPair env) st0) x.1
              (isHolDay env x.1) x.2 = [] := eligible_anti env hs1f helig
          show fillSlot env x.1 (isHolDay env x.1) _ x.2 = _
          unfold fillSlot
          rw [hocc]
          dsimp only
          rw [heligf]
          simp
      · exfalso
        have hsh : (fillPair env (l₁.foldl (fillPair env) st0) x).shifts =
            (l₁.foldl (fillPair env) st0).shifts ++ [⟨x.1, sel.id, x.2⟩] := by
          show (fillSlot env x.1 (isHolDay env x.1) _ x.2).shifts = _
          rw [heq]
        rw [hsh, List.find?_append, hf1] at hocc2
        simp at hocc2

/-- C3 — `autoFillMonth` is idempotent: a second pass over its own output
(same roster, month, column count) changes nothing. -/
theorem autoFillMonth_idempotent (env : GenEnv) (fc : Nat)
    (shifts : List Shift) :
    generateSchedule env fc (generateSchedule env fc shifts) =
      generateSchedule env fc shifts := by
  rw [generateSchedule_eq_foldl env fc shifts, generateSchedule_eq_foldl]
  have hinv : CountsInv env
      ((monthSlots env fc).foldl (fillPair env) ⟨shifts, initCounts env shifts⟩) := by
    apply foldl_fillPair_countsInv env _ (fun x hx => monthSlots_inMonth env fc hx)
    intro pid
    rfl
  have hre : (⟨((monthSlots env fc).foldl (fillPair env)
        ⟨shifts, initCounts env shifts⟩).shifts,
      initCounts env ((monthSlots env fc).foldl (fillPair env)
        ⟨shifts, initCounts env shifts⟩).shifts⟩ : GenState) =
      (monthSlots env fc).foldl (fillPair env) ⟨shifts, initCounts env shifts⟩ := by
    have hc : initCounts env ((monthSlots env fc).foldl (fillPair env)
        ⟨shifts, initCounts env shifts⟩).shifts =
        ((monthSlots env fc).foldl (fillPair env)
          ⟨shifts, initCounts env shifts⟩).counts :=
      funext (fun pid => (hinv pid).symm)
    rw [hc]
  rw [hre, foldl_fillPair_fix env _ _
    (fun x hx => fillPair_fix_of_final env _ _ hx)]

theorem eligPred_parts {env : GenEnv} {st : GenState} {day : Date}
    {isHol : Bool} {lvl : Level} {p : Person}
    (h : eligPred env st day isHol lvl p = true) :
    roleOk lvl p = true ∧ p.unavailableDates.contains day = false ∧
      capsOk isHol st.counts p = true ∧
      assignedOnDate st.shifts day p = false ∧
      adjacentDay st.shifts day p = false ∧
      groupOk env st.shifts day lvl p = true := by
  unfold eligPred at h
  simp only [Bool.and_eq_true, Bool.not_eq_true'] at h
  exact ⟨h.1.1.1.1.1, h.1.1.1.1.2, h.1.1.1.2, h.1.1.2, h.1.2, h.2⟩

theorem capsOk_total_false {isHol : Bool} {c : Counts} {p : Person}
    (h : capsOk isHol c p = true) : capTotalHit c p = false := by
  unfold capsOk at h
  by_cases h1 : capTotalHit c p = true
  · rw [h1] at h
    simp at h
  · simpa using h1

theorem fillSlot_of_no_people {env : GenEnv} (henv : env.people = [])
    (day : Date) (isHol : Bool) (st : GenState) (lvl : Level) :
    fillSlot env day isHol st lvl = st := by
  rcases fillSlot_spec env day isHol st lvl with ⟨heq, _⟩ | ⟨sel, _, _, hmem, _⟩
  · exact heq
  · exfalso
    have := eligible_subset_people hmem
    rw [henv] at this
    simp at this

/-- C5 — the scheduler only adds assignments: the input list is a prefix of
the output, every added shift fills a slot that held nothing in the input,
and with an empty roster the output is exactly the input. -/
theorem autoFillMonth_frame (env : GenEnv) (fc : Nat) (shifts : List Shift) :
    (∃ ext, generateSchedule env fc shifts = shifts ++ ext ∧
      ∀ s ∈ ext, ¬∃ s₀ ∈ shifts, s₀.date = s.date ∧ s₀.level = s.level) ∧
    (env.people = [] → generateSchedule env fc shifts = shifts) := by
  constructor
  · rw [generateSchedule_eq_foldl]
    have hstep : ∀ (st : GenState) (x : Date × Level), x ∈ monthSlots env fc →
        (∃ ext, st.shifts = shifts ++ ext ∧
          ∀ s ∈ ext, ¬∃ s₀ ∈ shifts, s₀.date = s.date ∧ s₀.level = s.level) →
        (∃ ext, (fillPair env st x).shifts = shifts ++ ext ∧
          ∀ s ∈ ext, ¬∃ s₀ ∈ shifts, s₀.date = s.date ∧ s₀.level = s.level) := by
      intro st x _ ⟨ext, hext, hfree⟩
      rcases fillSlot_spec env x.1 (isHolDay env x.1) st x.2 with
        ⟨heq, _⟩ | ⟨sel, hf, _, _, heq⟩
      · exact ⟨ext, by rw [show fillPair env st x = st from heq, hext], hfree⟩
      · refine ⟨ext ++ [⟨x.1, sel.id, x.2⟩], ?_, ?_⟩
        · rw [show (fillPair env st x).shifts =
            st.shifts ++ [⟨x.1, sel.id, x.2⟩] from by rw [show fillPair env st x =
              ⟨st.shifts ++ [⟨x.1, sel.id, x.2⟩],
                bumpSel st.counts sel.id (isHolDay env x.1)⟩ from heq]]
          rw [hext, List.append_assoc]
        · intro s hs
          rcases List.mem_append.mp hs with hs | hs
          · exact hfree s hs
          · simp only [List.mem_singleton] at hs
            subst hs
            rintro ⟨s₀, hs₀, hd, hl⟩
            rw [List.find?_eq_none] at hf
            have hs₀' : s₀ ∈ st.shifts := by
              rw [hext]
              exact List.mem_append_left _ hs₀
            exact absurd (by simp [hd, hl] : (s₀.date == x.1 && s₀.level == x.2) = true)
              (hf s₀ hs₀')
    have := foldl_inv (P := fun st : GenState =>
        ∃ ext, st.shifts = shifts ++ ext ∧
          ∀ s ∈ ext, ¬∃ s₀ ∈ shifts, s₀.date = s.date ∧ s₀.level = s.level)
      (f := fillPair env) (monthSlots env fc) ⟨shifts, initCounts env shifts⟩
      (fun st x hx h => hstep st x hx h) ⟨[], by simp, by simp⟩
    exact this
  · intro henv
    rw [generateSchedule_eq_foldl,
      foldl_fillPair_fix env _ _ (fun x _ => fillSlot_of_no_people henv x.1 _ _ x.2)]

theorem foldl_bumpCounts_total (env : GenEnv) {pid : String}
    (hmem : env.people.any (fun p => p.id == pid) = true) :
    ∀ (l : List Shift) (c : Counts),
      ((l.foldl (bumpCounts env) c) pid).total =
        (c pid).total + (l.filter (fun s => s.personId == pid)).length := by
  intro l
  induction l with
  | nil => intro c; simp
  | cons s t ih =>
      intro c
      rw [List.foldl_cons, ih]
      by_cases hsp : (s.personId == pid) = true
      · have hpe : s.personId = pid := by simpa using hsp
        have hb : (bumpCounts env c s pid).total = (c pid).total + 1 := by
          unfold bumpCounts
          rw [hpe]
          simp [hmem]
        rw [hb]
        simp [List.filter_cons, hsp]
        omega
      · have hb : (bumpCounts env c s pid).total = (c pid).total := by
          unfold bumpCounts
          split
          · have hne : (pid == s.personId) = false := by
              by_cases hx : pid = s.personId
              · exact absurd (by simp [hx]) hsp
              · simp [hx]
            simp [hne]
          · rfl
        rw [hb]
        simp [List.filter_cons, hsp]

theorem initCounts_total (env : GenEnv) (shifts : List Shift) {pid : String}
    (hmem : env.people.any (fun p => p.id == pid) = true) :
    (initCounts env shifts pid).total = monthTotal env shifts pid := by
  unfold initCounts monthTotal
  rw [foldl_bumpCounts_total env hmem]
  rw [List.filter_filter]
  simp [Bool.and_comm]

theorem monthTotal_append_other (env : GenEnv) (shifts : List Shift)
    {pid : String} (s : Shift) (h : (s.personId == pid) = false) :
    monthTotal env (shifts ++ [s]) pid = monthTotal env shifts pid := by
  unfold monthTotal
  rw [List.filter_append, List.filter_cons_of_neg (by simp [h])]
  simp

theorem monthTotal_append_self (env : GenEnv) (shifts : List Shift)
    {pid : String} (s : Shift) (hm : inMonth env s.date = true)
    (h : (s.personId == pid) = true) :
    monthTotal env (shifts ++ [s]) pid = monthTotal env shifts pid + 1 := by
  unfold monthTotal
  rw [List.filter_append, List.filter_cons_of_pos (by simp [h, hm])]
  simp

/-- C4 — soft fairness cap: with a strictly positive total target `T`, the
scheduler never pushes a person's target-month total above `max T` (input
total); it only assigns a slot to a person whose running total is below `T`. -/
theorem autoFillMonth_respects_total_target (env : GenEnv) (fc : Nat)
    (shifts : List Shift) (p : Person) (hp : p ∈ env.people)
    (hnd : (env.people.map Person.id).Nodup) (T : Int)
    (ht : p.targetTotal = some T) (hT : 0 < T) :
    (monthTotal env (generateSchedule env fc shifts) p.id : Int) ≤
      max T (monthTotal env shifts p.id : Int) := by
  have hmem : env.people.any (fun q => q.id == p.id) = true := by
    rw [List.any_eq_true]
    exact ⟨p, hp, by simp⟩
  rw [generateSchedule_eq_foldl]
  have hstep : ∀ (st : GenState) (x : Date × Level), x ∈ monthSlots env fc →
      (CountsInv env st ∧
        (monthTotal env st.shifts p.id : Int) ≤
          max T (monthTotal env shifts p.id : Int)) →
      (CountsInv env (fillPair env st x) ∧
        (monthTotal env (fillPair env st x).shifts p.id : Int) ≤
          max T (monthTotal env shifts p.id : Int)) := by
    intro st x hx ⟨hinv, hbound⟩
    refine ⟨fillPair_countsInv env x (monthSlots_inMonth env fc hx) hinv, ?_⟩
    rcases fillSlot_spec env x.1 (isHolDay env x.1) st x.2 with
      ⟨heq, _⟩ | ⟨sel, _, _, hsel, heq⟩
    · rw [show fillPair env st x = st from heq]
      exact hbound
    · have hsh : (fillPair env st x).shifts =
          st.shifts ++ [⟨x.1, sel.id, x.2⟩] := by
        rw [show fillPair env st x = ⟨st.shifts ++ [⟨x.1, sel.id, x.2⟩],
          bumpSel st.counts sel.id (isHolDay env x.1)⟩ from heq]
      by_cases hid : (sel.id == p.id) = true
      · have hselp : sel = p :=
          List.inj_on_of_nodup_map hnd (eligible_subset_people hsel) hp
            (by simpa using hid)
        have hcaps := (eligPred_parts (eligPred_of_mem_eligible hsel)).2.2.1
        have htot := capsOk_total_false hcaps
        unfold capTotalHit at htot
        rw [hselp, ht] at htot
        simp only [Bool.and_eq_false_iff, decide_eq_false_iff_not, not_le,
          not_lt] at htot
        rcases htot with h0 | hlt
        · exact absurd hT (by omega)
        · have hctot : ((st.counts p.id).total : Int) < T := hlt
          rw [hinv p.id, initCounts_total env st.shifts hmem] at hctot
          rw [hsh, monthTotal_append_self env st.shifts _
            (monthSlots_inMonth env fc hx) (by simpa using hid)]
          have : (monthTotal env st.shifts p.id : Int) + 1 ≤ T := by omega
          push_cast
          exact le_trans this (le_max_left _ _)
      · rw [hsh, monthTotal_append_other env st.shifts _ (by simpa using hid)]
        exact hbound
  have := foldl_inv (P := fun st : GenState =>
      CountsInv env st ∧
        (monthTotal env st.shifts p.id : Int) ≤
          max T (monthTotal env shifts p.id : Int))
    (f := fillPair env) (monthSlots env fc) ⟨shifts, initCounts env shifts⟩
    (fun st x hx h => hstep st x hx h)
    ⟨fun _ => rfl, le_max_right _ _⟩
  exact this.2

theorem groupOf_of_mem_nodup (env : GenEnv)
    (hnd : (env.people.map Person.id).Nodup) {sel : Person}
    (hsel : sel ∈ env.people) : groupOf env sel.id = normGroup sel.group := by
  unfold groupOf
  cases hq : env.people.find? (fun p => p.id == sel.id) with
  | none =>
      rw [List.find?_eq_none] at hq
      exact absurd (by simp) (hq sel hsel)
  | some q =>
      have hqm : q ∈ env.people := List.mem_of_find?_eq_some hq
      have hqid : q.id = sel.id := by simpa using List.find?_some hq
      rw [List.inj_on_of_nodup_map hnd hqm hsel hqid]

theorem not_assigned_of_false {shifts : List Shift} {day : Date} {p : Person}
    (h : assignedOnDate shifts day p = false) :
    ∀ s ∈ shifts, ¬(s.date = day ∧ s.personId = p.id) := by
  unfold assignedOnDate at h
  rw [List.any_eq_false] at h
  intro s hs ⟨h1, h2⟩
  exact h s hs (by simp [h1, h2])

theorem second_shift_unique {shifts : List Shift} (h : SecondUnique shifts)
    {a b : Shift} (ha : a ∈ shifts) (hb : b ∈ shifts) (hd : a.date = b.date)
    (hla : a.level = Level.second) (hlb : b.level = Level.second) : a = b := by
  by_cases hab : a = b
  · exact hab
  · have hsym : Symmetric (fun s1 s2 : Shift =>
        ¬(s1.date = s2.date ∧ s1.level = Level.second ∧ s2.level = Level.second)) := by
      intro x y hxy ⟨h1, h2, h3⟩
      exact hxy ⟨h1.symm, h3, h2⟩
    exact absurd ⟨hd, hla, hlb⟩ (List.Pairwise.forall hsym h ha hb hab)

theorem secondUnique_append {shifts : List Shift} (h : SecondUnique shifts)
    {s : Shift}
    (hs : s.level = Level.second →
      ∀ s₀ ∈ shifts, ¬(s₀.date = s.date ∧ s₀.level = Level.second)) :
    SecondUnique (shifts ++ [s]) := by
  rw [SecondUnique, List.pairwise_append]
  refine ⟨h, by simp, ?_⟩
  intro a ha b hb
  simp only [List.mem_singleton] at hb
  subst hb
  rintro ⟨h1, h2, h3⟩
  exact hs h3 a ha ⟨h1, h2⟩

/-- One scheduler placement preserves the group-exclusion invariant together
with second-call uniqueness. -/
theorem fillPair_groupOK (env : GenEnv)
    (hnd : (env.people.map Person.id).Nodup) {st : GenState}
    (x : Date × Level)
    (h : GroupOK env st.shifts ∧ SecondUnique st.shifts) :
    GroupOK env (fillPair env st x).shifts ∧
      SecondUnique (fillPair env st x).shifts := by
  obtain ⟨hg, h2⟩ := h
  rcases fillSlot_spec env x.1 (isHolDay env x.1) st x.2 with
    ⟨heq, _⟩ | ⟨sel, hf, _, hsel, heq⟩
  · rw [show fillPair env st x = st from heq]
    exact ⟨hg, h2⟩
  · have hsh : (fillPair env st x).shifts = st.shifts ++ [⟨x.1, sel.id, x.2⟩] := by
      rw [show fillPair env st x = ⟨st.shifts ++ [⟨x.1, sel.id, x.2⟩],
        bumpSel st.counts sel.id (isHolDay env x.1)⟩ from heq]
    rw [List.find?_eq_none] at hf
    have hgroupOk := (eligPred_parts (eligPred_of_mem_eligible hsel)).2.2.2.2.2
    have hgsel : groupOf env sel.id = normGroup sel.group :=
      groupOf_of_mem_nodup env hnd (eligible_subset_people hsel)
    rw [hsh]
    constructor
    · intro s1 hs1 s2 hs2 hviol
      obtain ⟨hd, hfirst, hr, hsec, hac⟩ := hviol
      rcases List.mem_append.mp hs1 with hs1 | hs1 <;>
        rcases List.mem_append.mp hs2 with hs2 | hs2
      · exact hg s1 hs1 s2 hs2 ⟨hd, hfirst, hr, hsec, hac⟩
      · -- s2 is the new shift (level x.2 = second), s1 an old first-call "r"
        simp only [List.mem_singleton] at hs2
        subst hs2
        simp only at hsec hac hd
        unfold groupOk at hgroupOk
        have hx2 : ¬(x.2).isFirst = true := by
          rw [hsec]
          simp [Level.isFirst]
        rw [if_neg hx2, hsec] at hgroupOk
        rw [hgsel] at hac
        have hgroupOk' : (!(st.shifts.filter
            (fun s => s.date == x.1 && s.level.isFirst)).any
              (fun fc => groupOf env fc.personId == "r")) = true := by
          simpa [hac] using hgroupOk
        rw [Bool.not_eq_true', List.any_eq_false] at hgroupOk'
        have hs1f : s1 ∈ st.shifts.filter
            (fun s => s.date == x.1 && s.level.isFirst) :=
          List.mem_filter.mpr ⟨hs1, by simp [hd, hfirst]⟩
        exact absurd (by simp [hr]) (hgroupOk' s1 hs1f)
      · -- s1 is the new shift (first-call "r"), s2 an old second-call "all calls"
        simp only [List.mem_singleton] at hs1
        subst hs1
        simp only at hfirst hr hd
        unfold groupOk at hgroupOk
        rw [if_pos hfirst] at hgroupOk
        rw [hgsel] at hr
        rw [if_pos (by simp [hr])] at hgroupOk
        cases hfind : st.shifts.find?
            (fun s => s.date == x.1 && s.level == Level.second) with
        | none =>
            rw [List.find?_eq_none] at hfind
            exact absurd (by simp [← hd, hsec]) (hfind s2 hs2)
        | some sc =>
            rw [hfind] at hgroupOk
            dsimp only at hgroupOk
            have hscm : sc ∈ st.shifts := List.mem_of_find?_eq_some hfind
            have hscp : sc.date = x.1 ∧ sc.level = Level.second := by
              have := List.find?_some hfind
              simpa using this
            have hs2sc : s2 = sc := second_shift_unique h2 hs2 hscm
              (by rw [← hd, hscp.1]) hsec hscp.2
            rw [hs2sc] at hac
            rw [hac] at hgroupOk
            simp at hgroupOk
      · -- both are the new shift: it cannot be first-call and second-call
        simp only [List.mem_singleton] at hs1 hs2
        subst hs1; subst hs2
        simp only at hfirst hsec
        rw [hsec] at hfirst
        simp [Level.isFirst] at hfirst
    · refine secondUnique_append h2 ?_
      intro hlvl s₀ hs₀ ⟨hd₀, hl₀⟩
      simp only at hlvl hd₀
      exact absurd (by simp [hd₀, hl₀, hlvl] :
        (s₀.date == x.1 && s₀.level == x.2) = true) (hf s₀ hs₀)

theorem fillPair_firstCallOK (env : GenEnv) {st : GenState} (x : Date × Level)
    (h : FirstCallOK st.shifts) : FirstCallOK (fillPair env st x).shifts := by
  rcases fillSlot_spec env x.1 (isHolDay env x.1) st x.2 with
    ⟨heq, _⟩ | ⟨sel, _, _, hsel, heq⟩
  · rw [show fillPair env st x = st from heq]
    exact h
  · have hsh : (fillPair env st x).shifts = st.shifts ++ [⟨x.1, sel.id, x.2⟩] := by
      rw [show fillPair env st x = ⟨st.shifts ++ [⟨x.1, sel.id, x.2⟩],
        bumpSel st.counts sel.id (isHolDay env x.1)⟩ from heq]
    rw [hsh, FirstCallOK, List.pairwise_append]
    refine ⟨h, by simp, ?_⟩
    intro a ha b hb
    simp only [List.mem_singleton] at hb
    subst hb
    rintro ⟨hp, hd, _, _, _⟩
    have hassigned := (eligPred_parts (eligPred_of_mem_eligible hsel)).2.2.2.1
    exact not_assigned_of_false hassigned a ha ⟨hd, hp⟩

theorem updateShift_first_pair_guard (sh : List Shift) (d : Date)
    (old? : Option String) (pid : String) (out : List Shift) (hpid : pid ≠ "")
    (hcall : updateShift sh d (Level.first 0) old? pid =
      (UpdateOutcome.applied, out)) :
    ∀ s ∈ out, ¬(s.date = d ∧ s.level = Level.first 1 ∧ s.personId = pid) := by
  unfold updateShift at hcall
  dsimp only at hcall
  rw [if_pos hpid] at hcall
  rw [if_pos (show isABLevel (Level.first 0) = true from rfl)] at hcall
  rw [if_pos (show (Level.first 0 == Level.first 0) = true from rfl)] at hcall
  split at hcall
  · exact absurd hcall (by simp)
  · next hblk =>
      rw [Bool.not_eq_true, List.any_eq_false] at hblk
      split at hcall
      · injection hcall with _ h2
        subst h2
        intro s hs ⟨h1, h2, h3⟩
        exact hblk s hs (by simp [h1, h2, h3])
      · injection hcall with _ h2
        subst h2
        intro s hs
        rcases List.mem_append.mp hs with hs | hs
        · intro ⟨h1, h2, h3⟩
          exact hblk s hs (by simp [h1, h2, h3])
        · simp only [List.mem_singleton] at hs
          subst hs
          rintro ⟨_, hl, _⟩
          simp at hl

/-- C2 (amended) — the scheduler never creates a same-day first-call double
booking (it skips anyone already assigned that date), and the manual
validator's guarded pair `1A`/`1B`: an accepted `updateShift` into `1A` never
leaves the placed person also holding `1B` that day. -/
theorem noFirstCallDoubleBooking (env : GenEnv) (fc : Nat)
    (shifts : List Shift) (h : FirstCallOK shifts) :
    FirstCallOK (generateSchedule env fc shifts) ∧
    (∀ (sh : List Shift) (d : Date) (old? : Option String) (pid : String)
        (out : List Shift), pid ≠ "" →
      updateShift sh d (Level.first 0) old? pid = (UpdateOutcome.applied, out) →
      ∀ s ∈ out, ¬(s.date = d ∧ s.level = Level.first 1 ∧ s.personId = pid)) := by
  constructor
  · rw [generateSchedule_eq_foldl]
    exact foldl_inv (P := fun st : GenState => FirstCallOK st.shifts)
      (f := fillPair env) (monthSlots env fc) ⟨shifts, initCounts env shifts⟩
      (fun st x _ hp => fillPair_firstCallOK env x hp) h
  · intro sh d old? pid out hpid hcall
    exact updateShift_first_pair_guard sh d old? pid out hpid hcall

/-- C2 (counterexample) — with three first-call columns configured, the
manual validator accepts placing a person at `1C` while they already hold
`1A` the same day: the person ends up under two distinct first-call letters. -/
theorem firstCallDoubleBooking_via_1C :
    (updateShift [⟨⟨2026, 2, 10⟩, "p", Level.first 0⟩] ⟨2026, 2, 10⟩
        (Level.first 2) none "p").1 = UpdateOutcome.applied ∧
    (updateShift [⟨⟨2026, 2, 10⟩, "p", Level.first 0⟩] ⟨2026, 2, 10⟩
        (Level.first 2) none "p").2 =
      [⟨⟨2026, 2, 10⟩, "p", Level.first 0⟩, ⟨⟨2026, 2, 10⟩, "p", Level.first 2⟩] ∧
    ¬ FirstCallOK (updateShift [⟨⟨2026, 2, 10⟩, "p", Level.first 0⟩]
        ⟨2026, 2, 10⟩ (Level.first 2) none "p").2 := by
  refine ⟨rfl, rfl, ?_⟩
  show ¬ FirstCallOK [⟨⟨2026, 2, 10⟩, "p", Level.first 0⟩,
    ⟨⟨2026, 2, 10⟩, "p", Level.first 2⟩]
  rw [FirstCallOK, List.pairwise_cons]
  rintro ⟨h1, -⟩
  exact h1 ⟨⟨2026, 2, 10⟩, "p", Level.first 2⟩ (List.mem_singleton_self _)
    ⟨rfl, rfl, rfl, rfl, by decide⟩

/-- C1 (amended) — the scheduler preserves the R / All-Calls group exclusion:
with distinct roster ids, at most one second call per date, and an input
satisfying the invariant, every output of `generateSchedule` satisfies it. -/
theorem autoFillMonth_group_exclusion (env : GenEnv) (fc : Nat)
    (shifts : List Shift) (hnd : (env.people.map Person.id).Nodup)
    (h2 : SecondUnique shifts) (hg : GroupOK env shifts) :
    GroupOK env (generateSchedule env fc shifts) := by
  rw [generateSchedule_eq_foldl]
  exact (foldl_inv (P := fun st : GenState =>
      GroupOK env st.shifts ∧ SecondUnique st.shifts)
    (f := fillPair env) (monthSlots env fc) ⟨shifts, initCounts env shifts⟩
    (fun st x _ hp => fillPair_groupOK env hnd x hp) ⟨hg, h2⟩).1

/-- C1 (counterexample) — the manual validator performs no group-exclusion
check: with an `"All Calls"` person already on second call, placing the
`"R"` person at `1A` the same day is accepted and the resulting state
violates the invariant. -/
theorem validatePlacement_misses_group_exclusion :
    (updateShift [⟨⟨2026, 2, 10⟩, "a2", Level.second⟩] ⟨2026, 2, 10⟩
        (Level.first 0) none "r1").1 = UpdateOutcome.applied ∧
    ¬ GroupOK envC1 (updateShift [⟨⟨2026, 2, 10⟩, "a2", Level.second⟩]
        ⟨2026, 2, 10⟩ (Level.first 0) none "r1").2 := by
  refine ⟨rfl, ?_⟩
  intro h
  exact h ⟨⟨2026, 2, 10⟩, "r1", Level.first 0⟩ (by decide)
    ⟨⟨2026, 2, 10⟩, "a2", Level.second⟩ (by decide)
    ⟨rfl, rfl, by decide, rfl, by decide⟩

set_option maxRecDepth 600000 in
/-- C6 — 1-day adjacency buffer: a person with any assignment on the
calendar date immediately before or after the slot's date (checked against
the whole running assignment list, other months included) is excluded from
the slot's eligible set; and in the concrete two-person scenario with A
assigned day 1, the scheduler selects B for day 2's first-call slot. -/
theorem adjacency_one_day_buffer (env : GenEnv) (st : GenState) (day : Date)
    (isHol : Bool) (lvl : Level) (p : Person)
    (hadj : ∃ s ∈ st.shifts, s.personId = p.id ∧
      (s.date = prevDay day ∨ s.date = nextDay day)) :
    p ∉ eligible env st day isHol lvl ∧
      (⟨⟨2026, 2, 2⟩, "B", Level.first 0⟩ : Shift) ∈
        generateSchedule envC6 1 inputC6 := by
  constructor
  · intro hmem
    have hfa := (eligPred_parts (eligPred_of_mem_eligible hmem)).2.2.2.2.1
    obtain ⟨s, hs, hpid, hd⟩ := hadj
    unfold adjacentDay at hfa
    rw [List.any_eq_false] at hfa
    refine hfa s hs ?_
    rcases hd with hd | hd <;> simp [hpid, hd]
  · decide

set_option maxRecDepth 600000 in
theorem adjacency_one_day_buffer_witness :
    personC6A ∉ eligible envC6 ⟨inputC6, initCounts envC6 inputC6⟩
        ⟨2026, 2, 2⟩ false (Level.first 0) ∧
      (⟨⟨2026, 2, 2⟩, "B", Level.first 0⟩ : Shift) ∈
        generateSchedule envC6 1 inputC6 :=
  adjacency_one_day_buffer envC6 ⟨inputC6, initCounts envC6 inputC6⟩
    ⟨2026, 2, 2⟩ false (Level.first 0) personC6A
    ⟨⟨⟨2026, 2, 1⟩, "A", Level.first 0⟩, by decide, by decide,
      Or.inl (by decide)⟩

set_option maxRecDepth 600000 in
/-- C7 (counterexample) — the claim's composite key predicts `p` (need −1
beats need −2) for the holiday slot (2026-02-07, level 2), but the code
skips the need comparison when neither candidate has a total target and
selects `q` on the lower holiday count.  The slot's best-candidate list,
sorted by the spec's key, starts with `p`; the code's output assigns `q`
and not `p`. -/
theorem tieBreak_counterexample :
    (jsSort (specCandLe true stC7.counts)
        (bestCandidates stC7 ⟨2026, 2, 7⟩
          (eligible envC7 stC7 ⟨2026, 2, 7⟩ true Level.second))).head? =
      some personC7P ∧
    isHolDay envC7 ⟨2026, 2, 7⟩ = true ∧
    (⟨⟨2026, 2, 7⟩, "q", Level.second⟩ : Shift) ∈
      generateSchedule envC7 2 inputC7 ∧
    (⟨⟨2026, 2, 7⟩, "p", Level.second⟩ : Shift) ∉
      generateSchedule envC7 2 inputC7 ∧
    personC7P.id ≠ personC7Q.id := by
  refine ⟨by decide, by decide, by decide, by decide, by decide⟩

theorem jsInsert_pairwise {α : Type _} {le : α → α → Bool} {S : α → Prop}
    (htot : ∀ a b, S a → S b → le a b = true ∨ le b a = true)
    (htrans : ∀ a b c, S a → S b → S c → le a b = true → le b c = true →
      le a c = true)
    {a : α} (ha : S a) :
    ∀ {l : List α}, (∀ x ∈ l, S x) →
      l.Pairwise (fun x y => le x y = true) →
      (jsInsert le a l).Pairwise (fun x y => le x y = true) := by
  intro l
  induction l with
  | nil => intro _ _; simp [jsInsert]
  | cons b bs ih =>
      intro hS hp
      rw [List.pairwise_cons] at hp
      unfold jsInsert
      split
      · next hab =>
          rw [List.pairwise_cons]
          constructor
          · intro x hx
            rcases List.mem_cons.mp hx with rfl | hx
            · exact hab
            · exact htrans a b x ha (hS b (by simp)) (hS x (by simp [hx]))
                hab (hp.1 x hx)
          · exact List.pairwise_cons.mpr hp
      · next hab =>
          rw [List.pairwise_cons]
          constructor
          · intro x hx
            rcases mem_jsInsert.mp hx with heq | hx
            · rw [heq]
              rcases htot a b ha (hS b (by simp)) with h | h
              · exact absurd h hab
              · exact h
            · exact hp.1 x hx
          · exact ih (fun x hx => hS x (by simp [hx])) hp.2

theorem jsSort_pairwise {α : Type _} {le : α → α → Bool} {S : α → Prop}
    (htot : ∀ a b, S a → S b → le a b = true ∨ le b a = true)
    (htrans : ∀ a b c, S a → S b → S c → le a b = true → le b c = true →
      le a c = true) :
    ∀ {l : List α}, (∀ x ∈ l, S x) →
      (jsSort le l).Pairwise (fun x y => le x y = true) := by
  intro l
  induction l with
  | nil => intro _; simp [jsSort]
  | cons a as ih =>
      intro hS
      unfold jsSort
      exact jsInsert_pairwise htot htrans (hS a (by simp))
        (fun x hx => hS x (by simp [mem_jsSort.mp hx]))
        (ih (fun x hx => hS x (by simp [hx])))

theorem jsSort_head_min {α : Type _} {le : α → α → Bool} {S : α → Prop}
    (htot : ∀ a b, S a → S b → le a b = true ∨ le b a = true)
    (htrans : ∀ a b c, S a → S b → S c → le a b = true → le b c = true →
      le a c = true)
    (hrefl : ∀ a, S a → le a a = true)
    {l : List α} (hS : ∀ x ∈ l, S x) {sel : α}
    (hhead : (jsSort le l).head? = some sel) :
    ∀ b ∈ l, le sel b = true := by
  intro b hb
  have hp := jsSort_pairwise htot htrans hS
  have hbmem : b ∈ jsSort le l := mem_jsSort.mpr hb
  cases hsort : jsSort le l with
  | nil => rw [hsort] at hhead; simp at hhead
  | cons h t =>
      rw [hsort] at hhead hp hbmem
      simp only [List.head?] at hhead
      injection hhead with hhead
      subst hhead
      rw [List.pairwise_cons] at hp
      rcases List.mem_cons.mp hbmem with rfl | hbt
      · exact hrefl b (hS b hb)
      · exact hp.1 b hbt

theorem needOf_pos {isHol : Bool} {c : Counts} {p : Person}
    (hcaps : capsOk isHol c p = true) (htp : truthyTarget p = true)
    (hpos : ∀ t, p.targetTotal = some t → 0 < t) : 1 ≤ needOf c p := by
  have htot := capsOk_total_false hcaps
  unfold truthyTarget at htp
  unfold capTotalHit at htot
  unfold needOf
  cases ht : p.targetTotal with
  | none => rw [ht] at htp; simp at htp
  | some t =>
      rw [ht] at htp htot
      have h0 : 0 < t := hpos t ht
      simp only [Bool.and_eq_false_iff, decide_eq_false_iff_not, not_lt,
        not_le] at htot
      dsimp only
      rw [if_pos htp]
      rcases htot with h | h
      · omega
      · omega


theorem cmpCand_eq_rest (isHol : Bool) (c : Counts) (a b : Person) :
    cmpCand isHol c a b =
      if ((truthyTarget a || truthyTarget b) &&
          needOf c a != needOf c b) = true then
        needOf c b - needOf c a
      else restCmp isHol c a b := rfl

theorem restCmp_le_iff (isHol : Bool) (c : Counts) (a b : Person) :
    restCmp isHol c a b ≤ 0 ↔
      ((if isHol then ((c a.id).hol : Int) else ((c a.id).wk : Int)) <
          (if isHol then ((c b.id).hol : Int) else ((c b.id).wk : Int)) ∨
        ((if isHol then ((c a.id).hol : Int) else ((c a.id).wk : Int)) =
            (if isHol then ((c b.id).hol : Int) else ((c b.id).wk : Int)) ∧
          ((c a.id).total : Int) ≤ ((c b.id).total : Int))) := by
  unfold restCmp
  cases isHol
  · by_cases hw : (c a.id).wk = (c b.id).wk
    · simp [hw]
    · have hw' : ((c a.id).wk != (c b.id).wk) = true := by
        simpa [bne_iff_ne] using hw
      simp only [Bool.false_and, Bool.false_eq_true, if_false, Bool.not_false,
        Bool.true_and, hw', if_true, if_false]
      constructor
      · intro h
        left
        have : (c a.id).wk ≠ (c b.id).wk := hw
        omega
      · intro h
        rcases h with h | ⟨h, _⟩
        · omega
        · exact absurd h (by exact_mod_cast hw)
  · by_cases hh : (c a.id).hol = (c b.id).hol
    · simp [hh]
    · have hh' : ((c a.id).hol != (c b.id).hol) = true := by
        simpa [bne_iff_ne] using hh
      simp only [Bool.true_and, hh', if_true]
      constructor
      · intro h
        left
        have : (c a.id).hol ≠ (c b.id).hol := hh
        omega
      · intro h
        rcases h with h | ⟨h, _⟩
        · omega
        · exact absurd h (by exact_mod_cast hh)

theorem lexLe4_trans {k1 k2 k3 : Int × Int × Int × Int}
    (h12 : lexLe4 k1 k2) (h23 : lexLe4 k2 k3) : lexLe4 k1 k3 := by
  obtain ⟨a1, b1, c1, d1⟩ := k1
  obtain ⟨a2, b2, c2, d2⟩ := k2
  obtain ⟨a3, b3, c3, d3⟩ := k3
  unfold lexLe4 at h12 h23 ⊢
  dsimp only at h12 h23 ⊢
  omega

theorem lexLe4_refl (k : Int × Int × Int × Int) : lexLe4 k k := by
  obtain ⟨a, b, c, d⟩ := k
  unfold lexLe4
  dsimp only
  omega

theorem restCmp_neg (isHol : Bool) (c : Counts) (a b : Person) :
    restCmp isHol c b a = -restCmp isHol c a b := by
  unfold restCmp
  cases isHol
  · by_cases hw : (c a.id).wk = (c b.id).wk
    · simp [hw]
    · have h1 : ((c a.id).wk != (c b.id).wk) = true := by
        simpa [bne_iff_ne] using hw
      have h2 : ((c b.id).wk != (c a.id).wk) = true := by
        rw [bne_iff_ne]
        exact fun he => hw he.symm
      simp [h1, h2]
  · by_cases hh : (c a.id).hol = (c b.id).hol
    · simp [hh]
    · have h1 : ((c a.id).hol != (c b.id).hol) = true := by
        simpa [bne_iff_ne] using hh
      have h2 : ((c b.id).hol != (c a.id).hol) = true := by
        rw [bne_iff_ne]
        exact fun he => hh he.symm
      simp [h1, h2]

theorem cmpCand_neg (isHol : Bool) (c : Counts) (a b : Person) :
    cmpCand isHol c b a = -cmpCand isHol c a b := by
  rw [cmpCand_eq_rest isHol c a b, cmpCand_eq_rest isHol c b a]
  have hg : ((truthyTarget b || truthyTarget a) &&
      needOf c b != needOf c a) = ((truthyTarget a || truthyTarget b) &&
      needOf c a != needOf c b) := by
    by_cases hn : needOf c a = needOf c b
    · simp [hn]
    · have h1 : (needOf c a != needOf c b) = true := by
        simpa [bne_iff_ne] using hn
      have h2 : (needOf c b != needOf c a) = true := by
        rw [bne_iff_ne]
        exact fun he => hn he.symm
      rw [h1, h2, Bool.and_true, Bool.and_true, Bool.or_comm]
  rw [hg]
  by_cases hgv : ((truthyTarget a || truthyTarget b) &&
      needOf c a != needOf c b) = true
  · rw [if_pos hgv, if_pos hgv]
    omega
  · rw [if_neg hgv, if_neg hgv]
    exact restCmp_neg isHol c a b

theorem candLe_total (isHol : Bool) (c : Counts) (a b : Person) :
    candLe isHol c a b = true ∨ candLe isHol c b a = true := by
  unfold candLe
  rw [cmpCand_neg isHol c a b]
  rcases le_or_lt (cmpCand isHol c a b) 0 with h | h
  · left
    simpa using h
  · right
    simp
    omega

theorem candLe_iff_lex {isHol : Bool} {c : Counts} {a b : Person}
    (ha1 : truthyTarget a = true → 1 ≤ needOf c a)
    (hb1 : truthyTarget b = true → 1 ≤ needOf c b) :
    candLe isHol c a b = true ↔
      lexLe4 (selKey isHol c a) (selKey isHol c b) := by
  have hrest := restCmp_le_iff isHol c a b
  unfold candLe selKey lexLe4
  rw [cmpCand_eq_rest]
  cases isHol <;>
    simp only [Bool.false_eq_true, if_false, if_true] at hrest ⊢ <;>
    (by_cases h1 : truthyTarget a = true <;> by_cases h2 : truthyTarget b = true) <;>
    simp only [h1, h2, Bool.true_or, Bool.or_true, Bool.false_or,
      Bool.or_false, Bool.true_and, Bool.false_and, if_true, if_false,
      Bool.false_eq_true, decide_eq_true_eq] <;>
    [skip; skip; skip; skip; skip; skip; skip; skip]
  · -- weekday, both targets
    have hA := ha1 h1
    have hB := hb1 h2
    by_cases h3 : needOf c a = needOf c b
    · rw [if_neg (by simp [h3]), hrest]
      simp only [lt_self_iff_false, false_or, true_and]
      omega
    · rw [if_pos (by simpa [bne_iff_ne] using h3)]
      simp only [lt_self_iff_false, false_or, true_and]
      constructor
      · intro h
        left
        omega
      · rintro (h | ⟨h, -⟩)
        · omega
        · exact absurd (by omega : needOf c a = needOf c b) h3
  · -- weekday, a has a target, b does not
    have hA := ha1 h1
    have hB := needOf_nonpos (c := c) (p := b) (by simpa using h2)
    rw [if_pos (by simp [bne_iff_ne]; omega)]
    constructor
    · intro _
      left
      omega
    · intro _
      omega
  · -- weekday, b has a target, a does not
    have hA := needOf_nonpos (c := c) (p := a) (by simpa using h1)
    have hB := hb1 h2
    rw [if_pos (by simp [bne_iff_ne]; omega)]
    constructor
    · intro h
      exfalso
      omega
    · rintro (h | ⟨h, -⟩) <;> omega
  · -- weekday, neither has a target
    rw [hrest]
    constructor
    · intro h
      right
      exact ⟨trivial, Or.inr ⟨trivial, h⟩⟩
    · rintro (h | ⟨-, h | ⟨-, h⟩⟩)
      · omega
      · omega
      · exact h
  · -- holiday, both targets
    have hA := ha1 h1
    have hB := hb1 h2
    by_cases h3 : needOf c a = needOf c b
    · rw [if_neg (by simp [h3]), hrest]
      simp only [lt_self_iff_false, false_or, true_and]
      omega
    · rw [if_pos (by simpa [bne_iff_ne] using h3)]
      simp only [lt_self_iff_false, false_or, true_and]
      constructor
      · intro h
        left
        omega
      · rintro (h | ⟨h, -⟩)
        · omega
        · exact absurd (by omega : needOf c a = needOf c b) h3
  · -- holiday, a has a target, b does not
    have hA := ha1 h1
    have hB := needOf_nonpos (c := c) (p := b) (by simpa using h2)
    rw [if_pos (by simp [bne_iff_ne]; omega)]
    constructor
    · intro _
      left
      omega
    · intro _
      omega
  · -- holiday, b has a target, a does not
    have hA := needOf_nonpos (c := c) (p := a) (by simpa using h1)
    have hB := hb1 h2
    rw [if_pos (by simp [bne_iff_ne]; omega)]
    constructor
    · intro h
      exfalso
      omega
    · rintro (h | ⟨h, -⟩) <;> omega
  · -- holiday, neither has a target
    rw [hrest]
    constructor
    · intro h
      right
      exact ⟨trivial, Or.inr ⟨trivial, h⟩⟩
    · rintro (h | ⟨-, h | ⟨-, h⟩⟩)
      · omega
      · omega
      · exact h

/-- C7 (amended) — when the scheduler fills a slot, it appends exactly one
shift for the head of the stably sorted best-candidate list, that winner is
one of the best candidates (2-day-buffer preferred, falling back to the full
eligible set), and — under the data model's invariant that set targets are
strictly positive — the winner is weakly minimal under the code's composite
comparator: need compared first only when at least one of the pair has a set
total target, then the matching day-type count, then the total. -/
theorem scheduler_pick_minimal (env : GenEnv) (st : GenState) (day : Date)
    (isHol : Bool) (lvl : Level)
    (hocc : st.shifts.find? (fun s => s.date == day && s.level == lvl) = none)
    (hne : eligible env st day isHol lvl ≠ [])
    (hpos : ∀ p ∈ env.people, ∀ t, p.targetTotal = some t → 0 < t) :
    ∃ sel,
      (fillSlot env day isHol st lvl).shifts =
        st.shifts ++ [⟨day, sel.id, lvl⟩] ∧
      sel ∈ bestCandidates st day (eligible env st day isHol lvl) ∧
      ∀ b ∈ bestCandidates st day (eligible env st day isHol lvl),
        cmpCand isHol st.counts sel b ≤ 0 := by
  rcases fillSlot_spec env day isHol st lvl with
    ⟨_, hside⟩ | ⟨sel, _, hh, _, heq⟩
  · rcases hside with h | h
    · rw [hocc] at h
      simp at h
    · exact absurd h hne
  · refine ⟨sel, by rw [heq], ?_, ?_⟩
    · have h1 := head?_mem hh
      exact mem_jsSort.mp h1
    · have hbound : ∀ p ∈ bestCandidates st day (eligible env st day isHol lvl),
          truthyTarget p = true → 1 ≤ needOf st.counts p := by
        intro p hp htp
        have hpe : p ∈ eligible env st day isHol lvl := mem_bestCandidates hp
        have hcaps := (eligPred_parts (eligPred_of_mem_eligible hpe)).2.2.1
        exact needOf_pos hcaps htp
          (fun t ht => hpos p (eligible_subset_people hpe) t ht)
      intro b hb
      have hmin := jsSort_head_min
        (S := fun p => p ∈ bestCandidates st day (eligible env st day isHol lvl))
        (fun x y _ _ => candLe_total isHol st.counts x y)
        (fun x y z hx hy hz hxy hyz => by
          rw [candLe_iff_lex (hbound x hx) (hbound y hy)] at hxy
          rw [candLe_iff_lex (hbound y hy) (hbound z hz)] at hyz
          rw [candLe_iff_lex (hbound x hx) (hbound z hz)]
          exact lexLe4_trans hxy hyz)
        (fun x hx => by
          rw [candLe_iff_lex (hbound x hx) (hbound x hx)]
          exact lexLe4_refl _)
        (fun x hx => hx) hh b hb
      unfold candLe at hmin
      simpa using hmin

set_option maxRecDepth 600000 in
/-- Closed instance of `scheduler_pick_minimal` at the counterexample slot
(2026-02-07, second call): the winner exists, is a best candidate, and is
comparator-minimal. -/
theorem scheduler_pick_minimal_witness :
    ∃ sel,
      (fillSlot envC7 ⟨2026, 2, 7⟩ true stC7 Level.second).shifts =
        stC7.shifts ++ [⟨⟨2026, 2, 7⟩, sel.id, Level.second⟩] ∧
      sel ∈ bestCandidates stC7 ⟨2026, 2, 7⟩
        (eligible envC7 stC7 ⟨2026, 2, 7⟩ true Level.second) ∧
      ∀ b ∈ bestCandidates stC7 ⟨2026, 2, 7⟩
          (eligible envC7 stC7 ⟨2026, 2, 7⟩ true Level.second),
        cmpCand true stC7.counts sel b ≤ 0 :=
  scheduler_pick_minimal envC7 stC7 ⟨2026, 2, 7⟩ true Level.second
    (by decide) (by decide)
    (by
      intro p hp t ht
      have hp' : p = personC7P ∨ p = personC7Q := by
        simpa [envC7] using hp
      rcases hp' with rfl | rfl
      · exact absurd ht (by simp [personC7P])
      · exact absurd ht (by simp [personC7Q]))

/-- C8 — the conflict report's literal cases: same-person assignments on
2026-02-10 and 2026-02-11 (given out of order, exercising the sort) yield
exactly one "consecutive" finding; 10 and 12 yield exactly one
"one-day-gap" finding; an assignment on an unavailable date yields a
violation independently of adjacency findings; and a person with no
findings in any category is reported conflict-free. -/
theorem reportConflicts_literal_cases :
    reportFor personC8
        [⟨⟨2026, 2, 11⟩, "c8", Level.second⟩,
          ⟨⟨2026, 2, 10⟩, "c8", Level.third⟩] 2026 2 =
      ⟨[], [(⟨2026, 2, 10⟩, ⟨2026, 2, 11⟩)], []⟩ ∧
    reportFor personC8
        [⟨⟨2026, 2, 12⟩, "c8", Level.second⟩,
          ⟨⟨2026, 2, 10⟩, "c8", Level.third⟩] 2026 2 =
      ⟨[], [], [(⟨2026, 2, 10⟩, ⟨2026, 2, 12⟩)]⟩ ∧
    reportFor personC8V
        [⟨⟨2026, 2, 10⟩, "c8", Level.second⟩,
          ⟨⟨2026, 2, 11⟩, "c8", Level.second⟩] 2026 2 =
      ⟨[⟨2026, 2, 10⟩], [(⟨2026, 2, 10⟩, ⟨2026, 2, 11⟩)], []⟩ ∧
    reportFor personC8V
        [⟨⟨2026, 2, 10⟩, "c8", Level.second⟩,
          ⟨⟨2026, 2, 20⟩, "c8", Level.second⟩] 2026 2 =
      ⟨[⟨2026, 2, 10⟩], [], []⟩ ∧
    conflictFree personC8
        [⟨⟨2026, 2, 10⟩, "c8", Level.second⟩,
          ⟨⟨2026, 2, 20⟩, "c8", Level.second⟩] 2026 2 = true := by
  refine ⟨by decide, by decide, by decide, by decide, by decide⟩

/-- C10 — only sort-adjacent pairs at distance exactly 1 or exactly 2
produce adjacency findings, so two same-date assignments of one person
(distance 0) yield no finding: a double-booked day alone is reported
conflict-free. -/
theorem sameDate_pair_yields_no_adjacency_finding :
    (∀ (person : Person) (shifts : List Shift) (y m : Nat)
        (pr : Date × Date), pr ∈ (reportFor person shifts y m).consecutive →
        dayDiff pr.1 pr.2 = 1) ∧
    (∀ (person : Person) (shifts : List Shift) (y m : Nat)
        (pr : Date × Date), pr ∈ (reportFor person shifts y m).oneDayGap →
        dayDiff pr.1 pr.2 = 2) ∧
    reportFor personC8
        [⟨⟨2026, 2, 10⟩, "c8", Level.second⟩,
          ⟨⟨2026, 2, 10⟩, "c8", Level.third⟩] 2026 2 = ⟨[], [], []⟩ ∧
    conflictFree personC8
        [⟨⟨2026, 2, 10⟩, "c8", Level.second⟩,
          ⟨⟨2026, 2, 10⟩, "c8", Level.third⟩] 2026 2 = true := by
  refine ⟨?_, ?_, by decide, by decide⟩
  · intro person shifts y m pr hpr
    unfold reportFor at hpr
    dsimp only at hpr
    rw [List.mem_map] at hpr
    obtain ⟨q, hq, rfl⟩ := hpr
    have := (List.mem_filter.mp hq).2
    simpa using this
  · intro person shifts y m pr hpr
    unfold reportFor at hpr
    dsimp only at hpr
    rw [List.mem_map] at hpr
    obtain ⟨q, hq, rfl⟩ := hpr
    have := (List.mem_filter.mp hq).2
    simpa using this

/-- Closed instance of the adjacency-finding distances: for the concrete
consecutive pair (2026-02-10, 2026-02-11) the reported distance is 1. -/
theorem sameDate_pair_witness :
    dayDiff ⟨2026, 2, 10⟩ ⟨2026, 2, 11⟩ = 1 :=
  sameDate_pair_yields_no_adjacency_finding.1 personC8
    [⟨⟨2026, 2, 11⟩, "c8", Level.second⟩, ⟨⟨2026, 2, 10⟩, "c8", Level.third⟩]
    2026 2 (⟨2026, 2, 10⟩, ⟨2026, 2, 11⟩) (by decide)

theorem limits_eq_one {l : Level} {lim : Nat} (h : limits l = some lim) :
    lim = 1 := by
  cases l with
  | second => simpa [limits] using h.symm
  | third => simpa [limits] using h.symm
  | first i =>
      match i with
      | 0 => simpa [limits] using h.symm
      | 1 => simpa [limits] using h.symm
      | (n + 2) => simp [limits] at h

/-- C9 (amended) — capacity rejection of a `toggleShift` add: for a slot
whose level has an entry in the `limits` table (`1A`, `1B`, `2`, `3`), the
call is rejected with "limit reached" exactly when the slot already holds
at least one assignment — a locked assignment counts like any other; levels
beyond `1B` have no table entry and are never capacity-rejected; every
rejection returns the assignment list unchanged. -/
theorem toggleShift_capacity (shifts : List Shift) (date : Date)
    (pid : String) (lvl : Level)
    (hnotoggle : ¬∃ s ∈ shifts,
      s.date = date ∧ s.personId = pid ∧ s.level = lvl) :
    ((toggleShift shifts date pid lvl).1 = ToggleOutcome.limitReached ↔
      (limits lvl).isSome = true ∧ ∃ s ∈ shifts, s.date = date ∧ s.level = lvl) ∧
    ((toggleShift shifts date pid lvl).1 = ToggleOutcome.limitReached ∨
        (toggleShift shifts date pid lvl).1 =
          ToggleOutcome.firstCallPairBlocked →
      (toggleShift shifts date pid lvl).2 = shifts) := by
  have hany : shifts.any (fun s =>
      s.date == date && s.personId == pid && s.level == lvl) = false := by
    rw [List.any_eq_false]
    intro s hs hcon
    simp only [Bool.and_eq_true, beq_iff_eq] at hcon
    exact hnotoggle ⟨s, hs, hcon.1.1, hcon.1.2, hcon.2⟩
  unfold toggleShift
  rw [if_neg (by simp [hany])]
  dsimp only
  cases hl : limits lvl with
  | none =>
      rw [if_neg (by simp)]
      by_cases hab : (isABLevel lvl && (shifts.filter
          (fun s => s.date == date)).any
            (fun s => isABLevel s.level && s.personId == pid)) = true
      · rw [if_pos hab]
        exact ⟨by simp, fun _ => rfl⟩
      · rw [if_neg hab]
        refine ⟨by simp, ?_⟩
        rintro (h | h) <;> simp at h
  | some lim =>
      have hlim : lim = 1 := limits_eq_one hl
      subst hlim
      by_cases hocc : ∃ s ∈ shifts, s.date = date ∧ s.level = lvl
      · have hcount : 1 ≤ ((shifts.filter (fun s => s.date == date)).filter
            (fun s => s.level == lvl)).length := by
          obtain ⟨s, hs, hd, hlv⟩ := hocc
          have hmem : s ∈ (shifts.filter (fun s => s.date == date)).filter
              (fun s => s.level == lvl) :=
            List.mem_filter.mpr
              ⟨List.mem_filter.mpr ⟨hs, by simp [hd]⟩, by simp [hlv]⟩
          exact List.length_pos.mpr (List.ne_nil_of_mem hmem)
        rw [if_pos (by simpa using hcount)]
        exact ⟨by simp [hocc], fun _ => rfl⟩
      · have hnil : (shifts.filter (fun s => s.date == date)).filter
            (fun s => s.level == lvl) = [] := by
          rw [List.filter_eq_nil_iff]
          intro s hsf hcon
          have hs := List.mem_filter.mp hsf
          exact hocc ⟨s, hs.1, by simpa using hs.2, by simpa using hcon⟩
        rw [if_neg (by simp [hnil])]
        by_cases hab : (isABLevel lvl && (shifts.filter
            (fun s => s.date == date)).any
              (fun s => isABLevel s.level && s.personId == pid)) = true
        · rw [if_pos hab]
          refine ⟨?_, fun _ => rfl⟩
          simp only [Prod.fst]
          constructor
          · intro h
            simp at h
          · rintro ⟨-, hex⟩
            exact absurd hex hocc
        · rw [if_neg hab]
          refine ⟨?_, ?_⟩
          · constructor
            · intro h
              simp at h
            · rintro ⟨-, hex⟩
              exact absurd hex hocc
          · rintro (h | h) <;> simp at h

/-- C9 (counterexample) — a slot holding only the locked sentinel: the
claim says adding must be accepted (no non-locked assignment present), but
`toggleShift` counts the locked assignment and rejects with the capacity
reason, leaving the list unchanged. -/
theorem toggleShift_locked_rejects :
    (toggleShift [⟨⟨2026, 2, 10⟩, "LOCKED", Level.second⟩] ⟨2026, 2, 10⟩
        "p1" Level.second).1 = ToggleOutcome.limitReached ∧
    (toggleShift [⟨⟨2026, 2, 10⟩, "LOCKED", Level.second⟩] ⟨2026, 2, 10⟩
        "p1" Level.second).2 =
      [⟨⟨2026, 2, 10⟩, "LOCKED", Level.second⟩] ∧
    ¬∃ s ∈ [(⟨⟨2026, 2, 10⟩, "LOCKED", Level.second⟩ : Shift)],
      s.date = (⟨2026, 2, 10⟩ : Date) ∧ s.level = Level.second ∧
        s.personId ≠ lockedId := by
  refine ⟨by decide, by decide, by decide⟩

/-- Closed instance of the capacity characterization: at the locked-slot
state the rejection fires and the list is unchanged. -/
theorem toggleShift_capacity_witness :
    ((toggleShift [⟨⟨2026, 2, 10⟩, "LOCKED", Level.second⟩] ⟨2026, 2, 10⟩
        "p1" Level.second).1 = ToggleOutcome.limitReached ↔
      (limits Level.second).isSome = true ∧
        ∃ s ∈ [(⟨⟨2026, 2, 10⟩, "LOCKED", Level.second⟩ : Shift)],
          s.date = (⟨2026, 2, 10⟩ : Date) ∧ s.level = Level.second) ∧
    ((toggleShift [⟨⟨2026, 2, 10⟩, "LOCKED", Level.second⟩] ⟨2026, 2, 10⟩
        "p1" Level.second).1 = ToggleOutcome.limitReached ∨
        (toggleShift [⟨⟨2026, 2, 10⟩, "LOCKED", Level.second⟩] ⟨2026, 2, 10⟩
          "p1" Level.second).1 = ToggleOutcome.firstCallPairBlocked →
      (toggleShift [⟨⟨2026, 2, 10⟩, "LOCKED", Level.second⟩] ⟨2026, 2, 10⟩
        "p1" Level.second).2 =
        [⟨⟨2026, 2, 10⟩, "LOCKED", Level.second⟩]) :=
  toggleShift_capacity [⟨⟨2026, 2, 10⟩, "LOCKED", Level.second⟩]
    ⟨2026, 2, 10⟩ "p1" Level.second (by decide)

/-- Closed instance of the group-exclusion preservation at the two-person
roster with an empty input. -/
theorem autoFillMonth_group_exclusion_witness :
    GroupOK envC1 (generateSchedule envC1 1 []) :=
  autoFillMonth_group_exclusion envC1 1 [] (by decide) List.Pairwise.nil
    (fun s hs => by simp at hs)

/-- Closed instance of the first-call invariant preservation at the
two-person roster with an empty input. -/
theorem noFirstCallDoubleBooking_witness :
    FirstCallOK (generateSchedule envC1 1 []) :=
  (noFirstCallDoubleBooking envC1 1 [] List.Pairwise.nil).1

/-- Closed instance of the fairness cap: a single person with total target 1
never exceeds it when the scheduler fills February 2026 from empty. -/
theorem autoFillMonth_respects_total_target_witness :
    (monthTotal envC4 (generateSchedule envC4 1 []) "t" : Int) ≤
      max 1 (monthTotal envC4 [] "t" : Int) :=
  autoFillMonth_respects_total_target envC4 1 [] personT4 (by decide)
    (by decide) 1 rfl (by decide)

/-- Closed instance of the frame property: an empty roster leaves the
assignment list untouched. -/
theorem autoFillMonth_frame_witness : generateSchedule envE 2 [] = [] :=
  (autoFillMonth_frame envE 2 []).2 rfl
